import Mathlib

/-!
Shallow embedding of the hexAlgo solver (src/solver.rs, src/misc.rs).

The repository's `multiverse`, `defn`, `env` and `constraint` modules are not
part of the sources at hand (only their callers in `solver.rs` are), so the
corresponding data types and operations are modelled from the specification;
each such definition carries a doc comment starting with `Modelled from the
spec:`.  Everything else is translated directly from the Rust sources.

Machine integers are modelled as `Int`/`Nat` with explicit range checks where
the source checks or could overflow (i16 conversions in `Coords::new`,
`u64::checked_mul` in `n_choose_k`).  A Rust `panic!`/failed `assert!` is
modelled as `none` of an `Option`-returning function.
-/

namespace HexAlgo

/-- Cell colors (`defn::Color`). -/
inductive Color where
  | Blue : Color
  | Black : Color
deriving DecidableEq, Repr

/-- Cube coordinates for hexagon tiling (`misc::Coords`): the two stored
components `q` and `r`; `s` is derived.  The i16 range restriction of the
stored fields is enforced by `Coords.new` below, which models the
`try_into().unwrap()` panics. -/
structure Coords where
  q : Int
  r : Int
deriving DecidableEq, Repr

/-- Smallest value of a 16-bit signed integer. -/
def i16min : Int := -32768

/-- Largest value of a 16-bit signed integer. -/
def i16max : Int := 32767

/-- `Coords::new`: panics (`none`) when `q + r + s ≠ 0`, and when `q` or `r`
does not fit in an `i16` (the `try_into().unwrap()` calls). `s` is not stored
and hence never converted. -/
def Coords.new (q r s : Int) : Option Coords :=
  if q + r + s ≠ 0 then none
  else if q < i16min ∨ i16max < q then none
  else if r < i16min ∨ i16max < r then none
  else some ⟨q, r⟩

/-- `Coords::s`: the derived third cube coordinate. -/
def Coords.s (c : Coords) : Int := -c.q - c.r

/-- `impl Add for Coords`: componentwise addition routed through
`Coords::new` (so it panics rather than wraps on i16 overflow). -/
def Coords.add (a b : Coords) : Option Coords :=
  Coords.new (a.q + b.q) (a.r + b.r) (a.s + b.s)

/-- `impl Sub for Coords`: componentwise subtraction routed through
`Coords::new`. -/
def Coords.sub (a b : Coords) : Option Coords :=
  Coords.new (a.q - b.q) (a.r - b.r) (a.s - b.s)

/-- Strict lexicographic order on `(q, r)`, the derived `Ord` of
`misc::Coords` (fields compared in declaration order). -/
def Coords.lt (a b : Coords) : Prop :=
  a.q < b.q ∨ (a.q = b.q ∧ a.r < b.r)

instance : DecidablePred (fun p : Coords × Coords => Coords.lt p.1 p.2) :=
  fun _ => by unfold Coords.lt; infer_instance

instance (a b : Coords) : Decidable (Coords.lt a b) := by
  unfold Coords.lt; infer_instance

/-- Non-strict lexicographic order on `(q, r)`. -/
def Coords.le (a b : Coords) : Prop :=
  Coords.lt a b ∨ a = b

instance (a b : Coords) : Decidable (Coords.le a b) := by
  unfold Coords.le; infer_instance

instance : IsTrans Coords Coords.le where
  trans a b c hab hbc := by
    rcases hab with hab | rfl
    · rcases hbc with hbc | rfl
      · left
        rcases hab with h1 | ⟨h1, h2⟩ <;> rcases hbc with h3 | ⟨h3, h4⟩
        · exact Or.inl (lt_trans h1 h3)
        · exact Or.inl (h3 ▸ h1)
        · exact Or.inl (h1 ▸ h3)
        · exact Or.inr ⟨h1.trans h3, lt_trans h2 h4⟩
      · exact Or.inl hab
    · exact hbc

instance : IsAntisymm Coords Coords.le where
  antisymm a b hab hba := by
    rcases hab with hab | rfl
    · rcases hba with hba | rfl
      · exfalso
        rcases hab with h1 | ⟨h1, h2⟩ <;> rcases hba with h3 | ⟨h3, h4⟩ <;> omega
      · rfl
    · rfl

instance : IsTotal Coords Coords.le where
  total a b := by
    unfold Coords.le Coords.lt
    rcases lt_trichotomy a.q b.q with h | h | h
    · exact Or.inl (Or.inl (Or.inl h))
    · rcases lt_trichotomy a.r b.r with h2 | h2 | h2
      · exact Or.inl (Or.inl (Or.inr ⟨h, h2⟩))
      · refine Or.inl (Or.inr ?_)
        cases a; cases b; simp_all
      · exact Or.inr (Or.inl (Or.inr ⟨h.symm, h2⟩))
    · exact Or.inr (Or.inl (Or.inl h))

/-- Insertion of a coordinate into a list, keeping ascending order and
dropping a duplicate. -/
def sinsert (c : Coords) : List Coords → List Coords
  | [] => [c]
  | x :: t =>
      if Coords.lt c x then c :: x :: t
      else if c = x then x :: t
      else x :: sinsert c t

instance : LeftCommutative sinsert := by
  refine ⟨fun a b l => ?_⟩
  by_cases hab : a = b
  · subst hab; rfl
  · have hirr : ∀ x : Coords, ¬ Coords.lt x x := fun x h => by
      unfold Coords.lt at h; omega
    have hasym : ∀ x y : Coords, Coords.lt x y → ¬ Coords.lt y x := fun x y h h' => by
      unfold Coords.lt at h h'; omega
    have htrans : ∀ x y z : Coords, Coords.lt x y → Coords.lt y z → Coords.lt x z :=
      fun x y z h h' => by unfold Coords.lt at h h' ⊢; omega
    have hconn : ∀ x y : Coords, x ≠ y → ¬ Coords.lt x y → Coords.lt y x := by
      intro x y hne h
      rcases x with ⟨xq, xr⟩; rcases y with ⟨yq, yr⟩
      have hne2 : ¬(xq = yq ∧ xr = yr) := fun hh => hne (by rw [hh.1, hh.2])
      unfold Coords.lt at h ⊢
      dsimp only at h ⊢
      omega
    induction l with
    | nil =>
        by_cases haxb : Coords.lt a b
        · simp [sinsert, haxb, hasym a b haxb, Ne.symm hab, hab]
        · have hba : Coords.lt b a := hconn a b hab haxb
          simp [sinsert, haxb, hab, hba, hasym b a hba, Ne.symm hab]
    | cons x t ih =>
        by_cases hbx : Coords.lt b x
        · by_cases haxb : Coords.lt a b
          · have hax : Coords.lt a x := htrans a b x haxb hbx
            simp [sinsert, hbx, haxb, hax, hasym a b haxb, Ne.symm hab]
          · have hba : Coords.lt b a := hconn a b hab haxb
            by_cases hax : Coords.lt a x
            · simp [sinsert, hax, haxb, hab, hba, hbx]
            · by_cases hax2 : a = x
              · simp [sinsert, hax, hax2, haxb, hbx, hirr x, hasym b x hbx,
                  hax2 ▸ hab]
              · simp [sinsert, hax, hax2, haxb, hab, hbx]
        · by_cases hbx2 : b = x
          · subst hbx2
            by_cases hax : Coords.lt a b
            · simp [sinsert, hax, hasym a b hax, Ne.symm hab, hirr b]
            · simp [sinsert, hax, hab, hirr b]
          · have hxb : Coords.lt x b := hconn b x hbx2 hbx
            by_cases hax : Coords.lt a x
            · have hab2 : Coords.lt a b := htrans a x b hax hxb
              simp [sinsert, hax, hbx, hbx2, hasym a b hab2, Ne.symm hab]
            · by_cases hax2 : a = x
              · subst hax2
                simp [sinsert, hirr a, hasym a b hxb, hbx2, hbx]
              · have hxa : Coords.lt x a := hconn a x hax2 hax
                simp [sinsert, hax, hax2, hbx, hbx2, ih]

/-- Iterate a finite set of coordinates in ascending key order (the iteration
order of Rust's `BTreeSet<Coords>`), computed by a structurally recursive
insertion sort so that concrete instances evaluate. -/
def csort (s : Finset Coords) : List Coords :=
  Multiset.foldr sinsert [] s.val

/-- Largest representable `u64` value. -/
def u64max : Nat := 2 ^ 64 - 1

/-- `u64::checked_mul`: `none` exactly when the product exceeds `u64::MAX`. -/
def checkedMul (a b : Nat) : Option Nat :=
  if a * b ≤ u64max then some (a * b) else none

/-- The `for i in 0..k` loop of `misc::n_choose_k`, with `rem` iterations left
and `i` iterations done: multiply the accumulator by `n - i` with overflow
check, divide exactly by `i + 1`. -/
def nckGo (n : Nat) : Nat → Nat → Nat → Option Nat
  | result, _, 0 => some result
  | result, i, rem + 1 =>
      match checkedMul result (n - i) with
      | none => none
      | some res => nckGo n (res / (i + 1)) (i + 1) rem

/-- `misc::n_choose_k`.  Outer `none` models the `panic!("Bad call")` on
`k > n`; inner `none` is the overflow sentinel. -/
def n_choose_k (n k : Nat) : Option (Option Nat) :=
  if n < k then none
  else some (nckGo n 1 0 (min k (n - k)))

/-- `multiverse::State`. -/
inductive MState where
  | Running : MState
  | Stuck : MState
  | Empty : MState
deriving DecidableEq, Repr

/-- Modelled from the spec: a multiverse is a scope (set of coordinates)
together with the set of admissible colorings of that scope.  A world is
represented by the set of its blue cells (a subset of the scope); every cell
of the scope outside the world is black in that world. -/
structure Multiverse where
  scope : Finset Coords
  worlds : Finset (Finset Coords)
deriving DecidableEq

/-- Modelled from the spec: `Multiverse::state` is `Empty` iff the scope is
empty, `Stuck` iff the worlds are empty but the scope is not, else
`Running`. -/
def Multiverse.state (m : Multiverse) : MState :=
  if m.scope = ∅ then .Empty
  else if m.worlds = ∅ then .Stuck
  else .Running

/-- Modelled from the spec: `Multiverse::empty`, the neutral multiverse with
empty scope and the single empty world. -/
def Multiverse.empty : Multiverse := ⟨∅, {∅}⟩

/-- Modelled from the spec: `Multiverse::invariants` emits, for every
coordinate of the scope that takes the same color in every world (the world
set being non-empty), that coordinate paired with the forced color. -/
def Multiverse.invariants (m : Multiverse) : List (Coords × Color) :=
  ((csort (m.scope.filter fun c => m.worlds ≠ ∅ ∧ ∀ w ∈ m.worlds, c ∈ w)).map
    fun c => (c, Color.Blue))
  ++ ((csort (m.scope.filter fun c => m.worlds ≠ ∅ ∧ ∀ w ∈ m.worlds, c ∉ w)).map
    fun c => (c, Color.Black))

/-- Modelled from the spec: `Multiverse::learn` removes `coord` from the
scope and keeps exactly the worlds in which `coord` had `color`; if `coord`
is not in the scope the multiverse is returned unchanged. -/
def Multiverse.learn (m : Multiverse) (c : Coords) (col : Color) : Multiverse :=
  if c ∈ m.scope then
    ⟨m.scope.erase c,
     (m.worlds.filter fun w => c ∈ w ↔ col = Color.Blue).image fun w => w.erase c⟩
  else m

/-- Modelled from the spec: `Multiverse::merge` unions the scopes and keeps
the unions of pairs of worlds that agree on the shared sub-scope. -/
def Multiverse.merge (m1 m2 : Multiverse) : Multiverse :=
  ⟨m1.scope ∪ m2.scope,
   ((m1.worlds ×ˢ m2.worlds).filter fun p => p.1 ∩ m2.scope = p.2 ∩ m1.scope).image
     fun p => p.1 ∪ p.2⟩

/-- Modelled from the spec: the cell taxonomy exposed by the puzzle
definition (`defn::Cell`).  The clue payloads (counts, modifiers, line
orientation) are omitted: they are consumed only by the constraint builders,
which are not part of the embedded sources. -/
inductive Cell where
  | Empty : Cell
  | Line : Cell
  | Zone0 : Bool → Color → Cell
  | Zone6 : Bool → Cell
  | Zone18 : Bool → Cell
deriving DecidableEq, Repr

/-- Modelled from the spec: the puzzle definition, a read-only map from
coordinates to cells, iterated in the order of the underlying list. -/
abbrev Defn : Type := List (Coords × Cell)

/-- Lookup of a coordinate in the definition (`defn[&coords]`). -/
def dlookup (c : Coords) : Defn → Option Cell
  | [] => none
  | e :: t => if e.1 = c then some e.2 else dlookup c t

/-- Modelled from the spec: `defn::color_of_cell`, the ground-truth color of
a cell.  A `Zone0` cell carries its own color, a `Zone6` cell is black, a
`Zone18` cell is blue; `Empty` and `Line` cells have no color. -/
def colorOfCell : Cell → Option Color
  | .Empty => none
  | .Line => none
  | .Zone0 _ col => some col
  | .Zone6 _ => some Color.Black
  | .Zone18 _ => some Color.Blue

/-- The ground-truth color the definition assigns to a coordinate
(`defn::color_of_cell(&defn[&coords])`); `none` also covers the panic of the
index operation on an absent key. -/
def defnColor (defn : Defn) (c : Coords) : Option Color :=
  (dlookup c defn).bind colorOfCell

/-- The clueable cells of the definition: those carrying a ground-truth
color (`Zone0`, `Zone6`, `Zone18`). -/
def clueable (defn : Defn) : Finset Coords :=
  ((defn.filter fun e => (colorOfCell e.2).isSome).map Prod.fst).toFinset

/-- The cells that are blue according to the definition's ground truth. -/
def truthBlue (defn : Defn) : Finset Coords :=
  ((defn.filter fun e => colorOfCell e.2 = some Color.Blue).map Prod.fst).toFinset

/-- Modelled from the spec: the solver environment, reduced to a
cooperatively polled cancellation token.  `remaining` counts how many polls
`check_timeout` will still answer before reporting `Timeout`; `reset_timer`
restores the full budget. -/
structure Env where
  limit : Nat
  remaining : Nat
deriving DecidableEq, Repr

/-- Modelled from the spec: `Env::check_timeout`; `none` is the `Timeout`
error. -/
def Env.checkTimeout (e : Env) : Option Env :=
  if e.remaining = 0 then none else some ⟨e.limit, e.remaining - 1⟩

/-- Modelled from the spec: `Env::reset_timer`. -/
def Env.reset (e : Env) : Env := ⟨e.limit, e.limit⟩

/-- An association list with keys in strictly ascending `Coords` order: the
model of `BTreeMap<Coords, _>` (iteration in ascending key order). -/
abbrev Cmap (α : Type) : Type := List (Coords × α)

/-- The keys of a map, in iteration order. -/
def ckeys {α : Type} (l : Cmap α) : List Coords := l.map Prod.fst

/-- The values of a map, in iteration order. -/
def cvals {α : Type} (l : Cmap α) : List α := l.map Prod.snd

/-- `BTreeMap::get`. -/
def clookup {α : Type} (k : Coords) : Cmap α → Option α
  | [] => none
  | e :: t => if e.1 = k then some e.2 else clookup k t

/-- `BTreeMap::insert`, keeping the list sorted by key and overwriting an
existing binding. -/
def cinsert {α : Type} (k : Coords) (v : α) : Cmap α → Cmap α
  | [] => [(k, v)]
  | e :: t =>
      if Coords.lt k e.1 then (k, v) :: e :: t
      else if k = e.1 then (k, v) :: t
      else e :: cinsert k v t

/-- Well-formedness of a map: keys strictly ascending (hence no
duplicates). -/
def csorted {α : Type} (l : Cmap α) : Prop :=
  l.Pairwise fun a b => Coords.lt a.1 b.1

/-- Solver progress (`solver::Progress`).  Finished when `unknowns` is
empty. -/
structure Progress where
  blues : Finset Coords
  blacks : Finset Coords
  unknowns : Finset Coords
deriving DecidableEq

/-- One step of `Progress::of_defn`: the `add` closure plus the `match` on
the cell. -/
def ofDefnStep (p : Progress) (e : Coords × Cell) : Progress :=
  match e.2 with
  | .Empty => p
  | .Line => p
  | .Zone0 revealed col =>
      if revealed then
        match col with
        | .Black => ⟨p.blues, insert e.1 p.blacks, p.unknowns⟩
        | .Blue => ⟨insert e.1 p.blues, p.blacks, p.unknowns⟩
      else ⟨p.blues, p.blacks, insert e.1 p.unknowns⟩
  | .Zone6 revealed =>
      if revealed then ⟨p.blues, insert e.1 p.blacks, p.unknowns⟩
      else ⟨p.blues, p.blacks, insert e.1 p.unknowns⟩
  | .Zone18 revealed =>
      if revealed then ⟨insert e.1 p.blues, p.blacks, p.unknowns⟩
      else ⟨p.blues, p.blacks, insert e.1 p.unknowns⟩

/-- `Progress::of_defn`. -/
def Progress.of_defn (defn : Defn) : Progress :=
  defn.foldl ofDefnStep ⟨∅, ∅, ∅⟩

/-- `Progress::is_solved`. -/
def Progress.isSolved (p : Progress) : Prop := p.unknowns = ∅

instance (p : Progress) : Decidable p.isSolved := by
  unfold Progress.isSolved; infer_instance

/-- `Progress::update`: move each reported coordinate from `unknowns` into
the set matching its color. -/
def Progress.update (p : Progress) (findings : List (Coords × Color)) : Progress :=
  findings.foldl
    (fun p e =>
      match e.2 with
      | Color.Black => ⟨p.blues, insert e.1 p.blacks, p.unknowns.erase e.1⟩
      | Color.Blue => ⟨insert e.1 p.blues, p.blacks, p.unknowns.erase e.1⟩)
    p

/-- Solver constraints (`solver::Constraints`): hidden, visible and
exhausted buckets. -/
structure Constraints where
  hidden : Cmap Multiverse
  visible : Cmap Multiverse
  exhausted : Finset Coords
deriving DecidableEq

/-- `UNIQUE_COORDS`, the synthetic coordinate of the global blue-count
constraint. -/
def UNIQUE_COORDS : Coords := ⟨999, 0⟩

/-- `Constraints::reveal`: move every hidden constraint whose carrier is now
visible into the visible map. -/
def Constraints.reveal (cs : Constraints) (visibleCells : Finset Coords) : Constraints :=
  { hidden := cs.hidden.filter fun e => decide (e.1 ∉ visibleCells)
    visible :=
      (cs.hidden.filter fun e => decide (e.1 ∈ visibleCells)).foldl
        (fun m e => cinsert e.1 e.2 m) cs.visible
    exhausted := cs.exhausted }

/-- The body of `Constraints::narrow` for a single visible multiverse:
intersect its scope with the visible cells and learn every now-known
color. -/
def narrowMv (visibleCells blues blacks : Finset Coords) (mv : Multiverse) : Multiverse :=
  let inter := mv.scope ∩ visibleCells
  if inter = ∅ then mv
  else
    let mv1 := (csort (inter ∩ blues)).foldl (fun m c => m.learn c Color.Blue) mv
    (csort (inter ∩ blacks)).foldl (fun m c => m.learn c Color.Black) mv1

/-- `Constraints::narrow`. -/
def Constraints.narrow (cs : Constraints) (visibleCells : Finset Coords)
    (p : Progress) : Constraints :=
  { cs with
    visible := cs.visible.map fun e => (e.1, narrowMv visibleCells p.blues p.blacks e.2) }

/-- The traversal of `Constraints::gc` over the visible map: keep `Running`
multiverses, move `Empty` ones to the exhausted set, panic (`none`) on a
`Stuck` one. -/
def gcList : Cmap Multiverse → Finset Coords → Option (Cmap Multiverse × Finset Coords)
  | [], ex => some ([], ex)
  | e :: t, ex =>
      match e.2.state with
      | .Running => (gcList t ex).map fun r => (e :: r.1, r.2)
      | .Stuck => none
      | .Empty => gcList t (insert e.1 ex)

/-- `Constraints::gc`; `none` models the `panic!` on a stuck multiverse. -/
def Constraints.gc (cs : Constraints) : Option Constraints :=
  (gcList cs.visible cs.exhausted).map fun r =>
    { hidden := cs.hidden, visible := r.1, exhausted := r.2 }

/-- `Constraints::is_solved`. -/
def Constraints.isSolved (cs : Constraints) : Prop :=
  cs.visible = [] ∧ cs.hidden = []

instance (cs : Constraints) : Decidable cs.isSolved := by
  unfold Constraints.isSolved; infer_instance

/-- `solver::Difficulty`. -/
inductive Difficulty where
  | Global : Nat → Difficulty
  | Local : Nat → Difficulty
deriving DecidableEq, Repr

/-- The inner loop of `Constraints::trivial_invariants` (and the invariant
collection of `global_invariants`): insert each emitted pair, first
asserting agreement with an existing binding, then asserting agreement with
the definition's ground truth.  `none` models a failed assertion. -/
def addPairsChecked (defn : Defn) :
    List (Coords × Color) → Cmap Color → Option (Cmap Color)
  | [], inv => some inv
  | (c, col) :: ps, inv =>
      match clookup c inv with
      | some col' =>
          if col = col' then
            if defnColor defn c = some col then addPairsChecked defn ps (cinsert c col inv)
            else none
          else none
      | none =>
          if defnColor defn c = some col then addPairsChecked defn ps (cinsert c col inv)
          else none

/-- `Constraints::trivial_invariants`: union of the invariants of all
visible multiverses, with the duplicate-agreement and ground-truth
assertions. -/
def trivialInvariants (defn : Defn) : List Multiverse → Cmap Color → Option (Cmap Color)
  | [], inv => some inv
  | mv :: rest, inv =>
      match addPairsChecked defn mv.invariants inv with
      | none => none
      | some inv2 => trivialInvariants defn rest inv2

/-- `Constraints::trivial_invariants` applied to a constraints value. -/
def Constraints.trivial_invariants (cs : Constraints) (defn : Defn) : Option (Cmap Color) :=
  trivialInvariants defn (cvals cs.visible) []

/-- The connection graph of `compound_invariants`: two distinct non-global
visible constraints are connected iff their scopes intersect. -/
def connectionsOf (visible : Cmap Multiverse) (k : Coords) : Finset Coords :=
  if k = UNIQUE_COORDS then ∅
  else
    ((ckeys visible).filter fun k2 =>
        decide (k2 ≠ k) && decide (k2 ≠ UNIQUE_COORDS) &&
        match clookup k visible, clookup k2 visible with
        | some mv0, some mv1 => decide ((mv0.scope ∩ mv1.scope) ≠ ∅)
        | _, _ => false).toFinset

/-- Group maps of `compound_invariants`: `BTreeMap<BTreeSet<Coords>,
Multiverse>` modelled as an association list in insertion order. -/
abbrev Groups : Type := List (Finset Coords × Multiverse)

/-- Lookup in a group map. -/
def glookup (k : Finset Coords) : Groups → Option Multiverse
  | [] => none
  | e :: t => if e.1 = k then some e.2 else glookup k t

/-- Insert into a group map, overwriting an existing binding. -/
def ginsert (k : Finset Coords) (v : Multiverse) : Groups → Groups
  | [] => [(k, v)]
  | e :: t => if e.1 = k then (k, v) :: t else e :: ginsert k v t

/-- Lookup of a visible multiverse by key with a default
(`self.constraints_visible[k]`; the default is never reached because the
keys come from the connection graph). -/
def vget (visible : Cmap Multiverse) (k : Coords) : Multiverse :=
  (clookup k visible).getD Multiverse.empty

/-- The per-group body of the parallel section of `compound_invariants`:
collect the neighbors of the group and merge each one in, skipping grown
keys already present in the snapshot. -/
def growOne (visible : Cmap Multiverse) (connections : Coords → Finset Coords)
    (snapshot : Groups) (ksetOld : Finset Coords) (mvOld : Multiverse) :
    List (Finset Coords × Multiverse) :=
  (csort (ksetOld.biUnion fun k =>
      (connections k).filter fun k2 => k2 ∉ ksetOld)).filterMap fun kNew =>
    if (glookup (insert kNew ksetOld) snapshot).isSome then none
    else some (insert kNew ksetOld, mvOld.merge (vget visible kNew))

/-- One iteration's group growth: generate all new entries from the
snapshot, insert them, then drop every snapshot key. -/
def growStep (visible : Cmap Multiverse) (connections : Coords → Finset Coords)
    (snapshot : Groups) : Groups :=
  ((snapshot.flatMap fun e => growOne visible connections snapshot e.1 e.2).foldl
      (fun g e => ginsert e.1 e.2 g) snapshot).filter
    fun e => (glookup e.1 snapshot).isNone

/-- The invariant extraction of one `compound_invariants` iteration: insert
each pair emitted by some group, asserting agreement with the ground
truth. -/
def collectPairs (defn : Defn) :
    List (Coords × Color) → Cmap Color → Option (Cmap Color)
  | [], inv => some inv
  | (c, col) :: ps, inv =>
      if defnColor defn c = some col then collectPairs defn ps (cinsert c col inv)
      else none

/-- Invariant extraction over all groups of an iteration. -/
def collectGroups (defn : Defn) : Groups → Cmap Color → Option (Cmap Color)
  | [], inv => some inv
  | e :: rest, inv =>
      match collectPairs defn e.2.invariants inv with
      | none => none
      | some inv2 => collectGroups defn rest inv2

/-- Result of `compound_invariants`: timeout, panic (failed assertion or
fuel exhaustion, the latter being unreachable), or the invariant map with
the difficulty counter and the advanced environment. -/
inductive CRes where
  | timeout : CRes
  | panic : CRes
  | ok : Cmap Color → Nat → Env → CRes
deriving DecidableEq

/-- The `loop` of `compound_invariants`.  `it` counts completed iterations,
`diff` is the `difficulty` variable; the timeout token is polled at the top
of each iteration and the safety cap fires once the just-finished iteration
has index greater than 1000. -/
def compoundLoop (defn : Defn) (visible : Cmap Multiverse)
    (connections : Coords → Finset Coords) :
    Nat → Nat → Env → Groups → Cmap Color → Nat → CRes
  | 0, _, _, _, _, _ => .panic
  | fuel + 1, it, env, groups, inv, diff =>
      match env.checkTimeout with
      | none => .timeout
      | some env1 =>
          match collectGroups defn (growStep visible connections groups) inv with
          | none => .panic
          | some inv2 =>
              if inv2 = [] then
                if growStep visible connections groups = [] then .ok inv2 diff env1
                else if it + 1 > 1000 then .ok inv2 (diff + 1) env1
                else compoundLoop defn visible connections fuel (it + 1) env1
                  (growStep visible connections groups) inv2 (diff + 1)
              else .ok inv2 diff env1

/-- The initial group map of `compound_invariants`: one singleton group per
visible constraint, the global constraint removed. -/
def initialGroups (visible : Cmap Multiverse) : Groups :=
  (visible.map fun e => (({e.1} : Finset Coords), e.2)).filter
    fun e => decide (e.1 ≠ ({UNIQUE_COORDS} : Finset Coords))

/-- `Constraints::compound_invariants` with explicit fuel (the safety cap
bounds the loop at 1001 iterations, so any fuel of at least 1002 gives the
same result). -/
def compoundInvariantsFuel (fuel : Nat) (defn : Defn) (env : Env)
    (cs : Constraints) : CRes :=
  let groups0 := initialGroups cs.visible
  if groups0 = [] then .ok [] 2 env
  else compoundLoop defn cs.visible (connectionsOf cs.visible) fuel 0 env groups0 [] 2

/-- `Constraints::compound_invariants`. -/
def Constraints.compound_invariants (cs : Constraints) (defn : Defn) (env : Env) : CRes :=
  compoundInvariantsFuel 1002 defn env cs

/-- Result of `global_invariants`. -/
inductive GRes where
  | timeout : GRes
  | panic : GRes
  | ok : Cmap Color → Env → GRes
deriving DecidableEq

/-- The merge fold of `global_invariants`: poll the timeout token before
each merge. -/
def globalFoldLoop : Env → Multiverse → List Multiverse → Option (Multiverse × Env)
  | env, mv, [] => some (mv, env)
  | env, mv, mv2 :: rest =>
      match env.checkTimeout with
      | none => none
      | some env1 => globalFoldLoop env1 (mv.merge mv2) rest

/-- `Constraints::global_invariants` on an explicit fold list: fold the
multiverses via `merge` starting from `Multiverse::empty`, then collect the
invariants of the result with the duplicate-agreement and ground-truth
assertions. -/
def globalInvariantsOn (defn : Defn) (env : Env) (mvs : List Multiverse) : GRes :=
  match globalFoldLoop env Multiverse.empty mvs with
  | none => .timeout
  | some (mv, env1) =>
      match addPairsChecked defn mv.invariants [] with
      | none => .panic
      | some inv => .ok inv env1

/-- `Constraints::global_invariants`: the fold list is the visible map's
values in reverse (descending-key) order. -/
def Constraints.global_invariants (cs : Constraints) (defn : Defn) (env : Env) : GRes :=
  globalInvariantsOn defn env (cvals cs.visible).reverse

/-- `solver::Findings`. -/
structure Findings where
  difficulty : Difficulty
  cells : Finset Coords
deriving DecidableEq

/-- `solver::Outcome`. -/
inductive Outcome where
  | Timeout : Outcome
  | Unsolvable : Outcome
  | Solved : List Findings → Outcome
deriving DecidableEq

/-- The result of one round of the `solve` loop: a returned outcome, a
panic, or the updated state together with the findings pushed to the
history. -/
inductive StepRes where
  | outcome : Outcome → StepRes
  | panic : StepRes
  | next : Env → Progress → Constraints → Findings → Cmap Color → StepRes

/-- Steps 5.1 through 5.3 of a `solve` round: the three invariant tiers
applied to the garbage-collected constraints `cs3`. -/
def solveStepTiers (defn : Defn) (env : Env) (p : Progress) (cs3 : Constraints) : StepRes :=
  match cs3.trivial_invariants defn with
  | none => .panic
  | some inv1 =>
      if inv1 = [] then
        match cs3.compound_invariants defn env.reset with
        | .timeout => .outcome .Timeout
        | .panic => .panic
        | .ok inv2 d2 env2 =>
            if inv2 = [] then
              match cs3.global_invariants defn env2 with
              | .timeout => .outcome .Timeout
              | .panic => .panic
              | .ok inv3 env3 =>
                  if inv3 = [] then .outcome .Unsolvable
                  else
                    .next env3 (p.update inv3) cs3
                      ⟨.Global cs3.visible.length, (ckeys inv3).toFinset⟩ inv3
            else
              .next env2 (p.update inv2) cs3
                ⟨.Local d2, (ckeys inv2).toFinset⟩ inv2
      else
        .next env (p.update inv1) cs3
          ⟨.Local 1, (ckeys inv1).toFinset⟩ inv1

/-- One round of `solve` (steps 1 through 6 of the loop body).  The outcome
`Solved []` stands for returning with the history accumulated so far; the
caller appends the produced findings. -/
def solveStep (defn : Defn) (env : Env) (p : Progress) (cs : Constraints) : StepRes :=
  match ((cs.reveal (p.blacks ∪ p.blues)).narrow (p.blacks ∪ p.blues) p).gc with
  | none => .panic
  | some cs3 =>
      if p.isSolved then
        if cs3.isSolved then .outcome (.Solved []) else .panic
      else if cs3.isSolved then .panic
      else solveStepTiers defn env p cs3

/-- `solver::solve`, fuel-indexed: each unit of fuel allows one round of the
loop.  `none` models a panic (or fuel exhaustion; the termination theorem
shows `|unknowns| + 1` rounds always suffice). -/
def solve (defn : Defn) : Nat → Env → Progress → Constraints → List Findings → Option Outcome
  | 0, _, _, _, _ => none
  | fuel + 1, env, p, cs, hist =>
      match solveStep defn env p cs with
      | .outcome (.Solved _) => some (.Solved hist)
      | .outcome o => some o
      | .panic => none
      | .next env' p' cs' f _ => solve defn fuel env' p' cs' (hist ++ [f])

/-- A multiverse compatible with the current solve state: its scope stays
within the clueable cells tracked by the progress, and the ground-truth
coloring (restricted to the scope) is one of its worlds. -/
def mvOk (defn : Defn) (p : Progress) (mv : Multiverse) : Prop :=
  mv.scope ⊆ p.blues ∪ p.blacks ∪ p.unknowns ∧
  truthBlue defn ∩ mv.scope ∈ mv.worlds

/-- The solver-loop invariant: the definition's keys are unambiguous, the
progress sets are disjoint and correctly colored, every constraint (visible
or hidden) is compatible with the state, hidden constraints are carried by
clueable cells, and the global blue-count constraint is visible with a scope
covering all unknowns. -/
def SolveInv (defn : Defn) (p : Progress) (cs : Constraints) : Prop :=
  (defn.map Prod.fst).Nodup ∧
  Disjoint p.blues p.blacks ∧ Disjoint p.blues p.unknowns ∧
  Disjoint p.blacks p.unknowns ∧
  (∀ c ∈ p.blues, defnColor defn c = some Color.Blue) ∧
  (∀ c ∈ p.blacks, defnColor defn c = some Color.Black) ∧
  (∀ c ∈ p.unknowns, (defnColor defn c).isSome) ∧
  (∀ e ∈ cs.visible ++ cs.hidden, mvOk defn p e.2) ∧
  (∀ k ∈ ckeys cs.hidden, k ∈ p.blues ∪ p.blacks ∪ p.unknowns) ∧
  UNIQUE_COORDS ∉ ckeys cs.hidden ∧
  (clookup UNIQUE_COORDS cs.visible).isSome ∧
  p.unknowns ⊆ (vget cs.visible UNIQUE_COORDS).scope

instance (defn : Defn) (p : Progress) (cs : Constraints) :
    Decidable (SolveInv defn p cs) := by
  unfold SolveInv mvOk; infer_instance

/-- The groups after `k` growth iterations of `compound_invariants`. -/
def groupsTrace (visible : Cmap Multiverse) (connections : Coords → Finset Coords) :
    Nat → Groups
  | 0 => initialGroups visible
  | k + 1 => growStep visible connections (groupsTrace visible connections k)

/-- Invariant accumulation without the ground-truth assertions. -/
def collectPairsPure : List (Coords × Color) → Cmap Color → Cmap Color
  | [], inv => inv
  | (c, col) :: ps, inv => collectPairsPure ps (cinsert c col inv)

/-- Invariant accumulation over groups without the ground-truth
assertions. -/
def collectGroupsPure : Groups → Cmap Color → Cmap Color
  | [], inv => inv
  | e :: rest, inv => collectGroupsPure rest (collectPairsPure e.2.invariants inv)

/-- The invariants accumulated by `compound_invariants` after `k`
iterations. -/
def accTrace (visible : Cmap Multiverse) (connections : Coords → Finset Coords) :
    Nat → Cmap Color
  | 0 => []
  | k + 1 =>
      collectGroupsPure (groupsTrace visible connections (k + 1))
        (accTrace visible connections k)

/-- The partition invariant of `Progress`: the three sets are pairwise
disjoint and cover exactly the clueable cells of the definition. -/
def PartitionOk (defn : Defn) (p : Progress) : Prop :=
  Disjoint p.blues p.blacks ∧ Disjoint p.blues p.unknowns ∧
  Disjoint p.blacks p.unknowns ∧
  p.blues ∪ p.blacks ∪ p.unknowns = clueable defn

instance (defn : Defn) (p : Progress) : Decidable (PartitionOk defn p) := by
  unfold PartitionOk; infer_instance

/-!  ## Theorems  -/

theorem coords_new_none_iff (q r s : Int) :
    Coords.new q r s = none ↔
      (q + r + s ≠ 0 ∨ q < i16min ∨ i16max < q ∨ r < i16min ∨ i16max < r) := by
  unfold Coords.new
  split_ifs with h1 h2 h3 <;> simp_all <;> omega

/--
C10: `Coords::new` panics not only when `q + r + s ≠ 0` but also whenever
`q` or `r` does not fit in a signed 16-bit integer; consequently coordinate
addition and subtraction panic, rather than wrapping, whenever a resulting
`q` or `r` component leaves the i16 range.
-/
theorem coords_new_and_ops_panic_on_i16_overflow :
    (∀ q r s : Int, Coords.new q r s = none ↔
        (q + r + s ≠ 0 ∨ q < i16min ∨ i16max < q ∨ r < i16min ∨ i16max < r))
    ∧ (∀ a b : Coords, Coords.add a b = none ↔
        (a.q + b.q < i16min ∨ i16max < a.q + b.q ∨
         a.r + b.r < i16min ∨ i16max < a.r + b.r))
    ∧ (∀ a b : Coords, Coords.sub a b = none ↔
        (a.q - b.q < i16min ∨ i16max < a.q - b.q ∨
         a.r - b.r < i16min ∨ i16max < a.r - b.r))
    ∧ (∀ a b c : Coords, Coords.add a b = some c → c.q = a.q + b.q ∧ c.r = a.r + b.r)
    ∧ (∀ a b c : Coords, Coords.sub a b = some c → c.q = a.q - b.q ∧ c.r = a.r - b.r) := by
  refine ⟨coords_new_none_iff, ?_, ?_, ?_, ?_⟩
  · intro a b
    rw [Coords.add, coords_new_none_iff]
    unfold Coords.s
    constructor
    · intro h; rcases h with h | h <;> [omega; exact h]
    · intro h; right; exact h
  · intro a b
    rw [Coords.sub, coords_new_none_iff]
    unfold Coords.s
    constructor
    · intro h; rcases h with h | h <;> [omega; exact h]
    · intro h; right; exact h
  · intro a b c h
    rw [Coords.add, Coords.new] at h
    split_ifs at h
    exact ⟨(congrArg Coords.q (Option.some_injective _ h)).symm,
      (congrArg Coords.r (Option.some_injective _ h)).symm⟩
  · intro a b c h
    rw [Coords.sub, Coords.new] at h
    split_ifs at h
    exact ⟨(congrArg Coords.q (Option.some_injective _ h)).symm,
      (congrArg Coords.r (Option.some_injective _ h)).symm⟩

/-- Witness for C10 at concrete coordinates. -/
theorem coords_ops_panic_witness :
    (⟨4, 6⟩ : Coords).q = (⟨1, 2⟩ : Coords).q + (⟨3, 4⟩ : Coords).q ∧
    (⟨4, 6⟩ : Coords).r = (⟨1, 2⟩ : Coords).r + (⟨3, 4⟩ : Coords).r :=
  coords_new_and_ops_panic_on_i16_overflow.2.2.2.1 ⟨1, 2⟩ ⟨3, 4⟩ ⟨4, 6⟩ (by decide)

theorem nckGo_ok (n : Nat) :
    ∀ (rem i : Nat),
      (∀ j < rem, Nat.choose n (i + j) * (n - (i + j)) ≤ u64max) →
      nckGo n (Nat.choose n i) i rem = some (Nat.choose n (i + rem)) := by
  intro rem
  induction rem with
  | zero => intro i _; simp [nckGo]
  | succ rem ih =>
      intro i h
      have h0 : Nat.choose n i * (n - i) ≤ u64max := by
        have := h 0 (Nat.succ_pos rem); simpa using this
      have hdiv : Nat.choose n i * (n - i) / (i + 1) = Nat.choose n (i + 1) := by
        rw [← Nat.choose_succ_right_eq n i]
        exact Nat.mul_div_cancel _ (Nat.succ_pos i)
      have hrec := ih (i + 1) (by
        intro j hj
        have := h (j + 1) (by omega)
        have harg : i + 1 + j = i + (j + 1) := by omega
        rw [harg]; exact this)
      rw [nckGo]
      rw [checkedMul, if_pos h0]
      dsimp only
      rw [hdiv]
      rw [hrec]
      have : i + 1 + rem = i + (rem + 1) := by omega
      rw [this]

theorem nckGo_overflow (n : Nat) :
    ∀ (rem i j0 : Nat), j0 < rem →
      (∀ j < j0, Nat.choose n (i + j) * (n - (i + j)) ≤ u64max) →
      u64max < Nat.choose n (i + j0) * (n - (i + j0)) →
      nckGo n (Nat.choose n i) i rem = none := by
  intro rem
  induction rem with
  | zero => intro i j0 h; omega
  | succ rem ih =>
      intro i j0 hj0 hpre hover
      match j0 with
      | 0 =>
          rw [nckGo, checkedMul, if_neg (by simpa using Nat.not_le_of_lt hover)]
      | j0' + 1 =>
          have h0 : Nat.choose n i * (n - i) ≤ u64max := by
            have := hpre 0 (Nat.succ_pos j0'); simpa using this
          have hdiv : Nat.choose n i * (n - i) / (i + 1) = Nat.choose n (i + 1) := by
            rw [← Nat.choose_succ_right_eq n i]
            exact Nat.mul_div_cancel _ (Nat.succ_pos i)
          rw [nckGo, checkedMul, if_pos h0]
          dsimp only
          rw [hdiv]
          refine ih (i + 1) j0' (by omega) ?_ ?_
          · intro j hj
            have := hpre (j + 1) (by omega)
            have harg : i + 1 + j = i + (j + 1) := by omega
            rw [harg]; exact this
          · have harg : i + 1 + j0' = i + (j0' + 1) := by omega
            rw [harg]; exact hover

/--
C9: for every `n` and every `k ≤ n`, `n_choose_k n k` returns the exact
binomial coefficient (Pascal's triangle, `Nat.choose`) whenever no
intermediate checked multiplication overflows u64, and returns the sentinel
`none` when an intermediate multiplication overflows; for `k > n` it panics.
The intermediate product of iteration `j` is `C(n, j) * (n - j)`.
-/
theorem n_choose_k_matches_pascal (n k : Nat) :
    (k ≤ n →
      ((∀ j < min k (n - k), Nat.choose n j * (n - j) ≤ u64max) →
          n_choose_k n k = some (some (Nat.choose n k)))
      ∧ ((∃ j, j < min k (n - k) ∧ u64max < Nat.choose n j * (n - j)) →
          n_choose_k n k = some none))
    ∧ (n < k → n_choose_k n k = none) := by
  constructor
  · intro hkn
    have hsym : Nat.choose n (min k (n - k)) = Nat.choose n k := by
      rcases Nat.le_total k (n - k) with h | h
      · rw [min_eq_left h]
      · rw [min_eq_right h, Nat.choose_symm hkn]
    constructor
    · intro hno
      rw [n_choose_k, if_neg (by omega)]
      have h1 : (1 : Nat) = Nat.choose n 0 := by simp
      rw [h1, nckGo_ok n (min k (n - k)) 0 (by simpa using hno)]
      simp [hsym]
    · intro hover
      rw [n_choose_k, if_neg (by omega)]
      have hex : ∃ j, j < min k (n - k) ∧ u64max < Nat.choose n j * (n - j) := hover
      have hfind := Nat.find_spec hex
      have hmin := fun m hm => Nat.find_min hex (m := m) hm
      have h1 : (1 : Nat) = Nat.choose n 0 := by simp
      rw [h1, nckGo_overflow n (min k (n - k)) 0 (Nat.find hex) hfind.1 ?_ (by simpa using hfind.2)]
      intro j hj
      have hjlt : j < min k (n - k) := lt_trans hj hfind.1
      have := hmin j hj
      simp only [not_and, not_lt] at this
      simpa using this hjlt
  · intro h
    rw [n_choose_k, if_pos h]

/-- Witness for C9: `C(7, 3) = 35` through the loop, and the panic on
`k > n`. -/
theorem n_choose_k_witness :
    n_choose_k 7 3 = some (some (Nat.choose 7 3)) ∧ n_choose_k 3 7 = none :=
  ⟨((n_choose_k_matches_pascal 7 3).1 (by decide)).1 (by decide),
   (n_choose_k_matches_pascal 3 7).2 (by decide)⟩

theorem gcList_none_iff (l : Cmap Multiverse) (ex : Finset Coords) :
    gcList l ex = none ↔ ∃ e ∈ l, e.2.state = MState.Stuck := by
  induction l generalizing ex with
  | nil => simp [gcList]
  | cons e t ih =>
      rw [gcList]
      rcases hs : e.2.state with _ | _ | _
      · simp only [Option.map_eq_none']
        rw [ih ex]
        simp [hs]
      · simp [hs]
      · rw [ih (insert e.1 ex)]
        simp [hs]

theorem gcList_some (l : Cmap Multiverse) (ex : Finset Coords)
    (r : Cmap Multiverse × Finset Coords) (h : gcList l ex = some r) :
    r.1 = l.filter (fun e => decide (e.2.state = MState.Running)) ∧
    r.2 = ex ∪ ((l.filter fun e => decide (e.2.state = MState.Empty)).map Prod.fst).toFinset := by
  induction l generalizing ex r with
  | nil =>
      rw [gcList] at h
      cases h
      simp
  | cons e t ih =>
      rw [gcList] at h
      rcases hs : e.2.state with _ | _ | _ <;> rw [hs] at h
      · rcases ht : gcList t ex with _ | r'
        · rw [ht] at h; cases h
        · rw [ht] at h
          cases h
          rcases ih ex r' ht with ⟨h1, h2⟩
          constructor
          · simp [List.filter_cons, hs, h1]
          · simp [List.filter_cons, hs, h2]
      · cases h
      · rcases ih (insert e.1 ex) r h with ⟨h1, h2⟩
        constructor
        · simp [List.filter_cons, hs, h1]
        · rw [h2]
          simp [List.filter_cons, hs, Finset.insert_union, Finset.union_insert]

/--
C5: `gc` examines every visible multiverse: an `Empty` one is removed from
the visible map and its coordinate added to the exhausted set, a `Stuck` one
aborts the solve with a panic, a `Running` one is kept unchanged, and no
other entries (in particular the hidden map) are modified.
-/
theorem gc_drops_empty_keeps_running_panics_on_stuck (cs : Constraints) :
    (cs.gc = none ↔ ∃ e ∈ cs.visible, e.2.state = MState.Stuck)
    ∧ (∀ cs', cs.gc = some cs' →
        cs'.visible = cs.visible.filter (fun e => decide (e.2.state = MState.Running))
        ∧ cs'.exhausted = cs.exhausted ∪
            ((cs.visible.filter fun e => decide (e.2.state = MState.Empty)).map
              Prod.fst).toFinset
        ∧ cs'.hidden = cs.hidden) := by
  constructor
  · rw [Constraints.gc, Option.map_eq_none']
    exact gcList_none_iff cs.visible cs.exhausted
  · intro cs' h
    rw [Constraints.gc] at h
    rcases hg : gcList cs.visible cs.exhausted with _ | r
    · rw [hg] at h; cases h
    · rw [hg] at h
      cases h
      rcases gcList_some cs.visible cs.exhausted r hg with ⟨h1, h2⟩
      exact ⟨h1, h2, rfl⟩

/-- Witness for C5 on a two-constraint registry with one `Running` and one
`Empty` multiverse. -/
theorem gc_witness :
    (Constraints.mk [] [(⟨0, 0⟩, ⟨{⟨2, 0⟩}, {∅}⟩), (⟨1, 0⟩, ⟨∅, ∅⟩)] ∅).gc =
        some (Constraints.mk [] [(⟨0, 0⟩, ⟨{⟨2, 0⟩}, {∅}⟩)] {⟨1, 0⟩}) ∧
      (Constraints.mk [] [(⟨0, 0⟩, ⟨{⟨2, 0⟩}, {∅}⟩)] {⟨1, 0⟩}).visible =
        [(⟨0, 0⟩, ⟨{⟨2, 0⟩}, {∅}⟩)] := by
  have h := (gc_drops_empty_keeps_running_panics_on_stuck
      (Constraints.mk [] [(⟨0, 0⟩, ⟨{⟨2, 0⟩}, {∅}⟩), (⟨1, 0⟩, ⟨∅, ∅⟩)] ∅)).2
      (Constraints.mk [] [(⟨0, 0⟩, ⟨{⟨2, 0⟩}, {∅}⟩)] {⟨1, 0⟩}) (by decide)
  exact ⟨by decide, h.1⟩

theorem Coords.lt_irrefl (a : Coords) : ¬ Coords.lt a a := by
  unfold Coords.lt; omega

theorem Coords.lt_asymm {a b : Coords} (h : Coords.lt a b) : ¬ Coords.lt b a := by
  unfold Coords.lt at h ⊢; omega

theorem Coords.lt_trans' {a b c : Coords} (h1 : Coords.lt a b) (h2 : Coords.lt b c) :
    Coords.lt a c := by
  unfold Coords.lt at h1 h2 ⊢; omega

theorem Coords.lt_connex {a b : Coords} (hne : a ≠ b) (h : ¬ Coords.lt a b) :
    Coords.lt b a := by
  rcases a with ⟨aq, ar⟩; rcases b with ⟨bq, br⟩
  have hne2 : ¬(aq = bq ∧ ar = br) := by
    intro hh
    exact hne (by rw [hh.1, hh.2])
  unfold Coords.lt at h ⊢
  dsimp only at h ⊢
  omega

/-- In a sorted map whose greatest key is `UNIQUE_COORDS`, the entry at
`UNIQUE_COORDS` is the last one. -/
theorem sorted_max_last (l : Cmap Multiverse) (g : Multiverse)
    (hs : csorted l) (hg : clookup UNIQUE_COORDS l = some g)
    (hmax : ∀ e ∈ l, e.1 ≠ UNIQUE_COORDS → Coords.lt e.1 UNIQUE_COORDS) :
    l = (l.filter fun e => decide (e.1 ≠ UNIQUE_COORDS)) ++ [(UNIQUE_COORDS, g)] := by
  induction l with
  | nil => cases hg
  | cons e t ih =>
      rw [clookup] at hg
      by_cases he : e.1 = UNIQUE_COORDS
      · rw [if_pos he] at hg
        have hg2 : e.2 = g := Option.some_injective _ hg
        have ht : t = [] := by
          rcases t with _ | ⟨e', t'⟩
          · rfl
          · exfalso
            have hpw := (List.pairwise_cons.mp hs).1 e' (by simp)
            rw [he] at hpw
            by_cases he' : e'.1 = UNIQUE_COORDS
            · rw [he'] at hpw
              exact Coords.lt_irrefl _ hpw
            · exact Coords.lt_asymm hpw (hmax e' (by simp) he')
        subst ht
        rcases e with ⟨k, v⟩
        simp only at he hg2
        subst he
        subst hg2
        simp [List.filter_cons]
      · rw [if_neg he] at hg
        have ihr := ih (List.pairwise_cons.mp hs).2 hg
          (fun e' he' hne => hmax e' (List.mem_cons_of_mem e he') hne)
        rw [List.filter_cons, if_pos (by simpa using he)]
        rw [List.cons_append, ← ihr]

/-- Merging into the neutral multiverse gives back the argument. -/
theorem Multiverse.empty_merge (m : Multiverse) : Multiverse.empty.merge m = m := by
  rcases m with ⟨s, w⟩
  rw [Multiverse.merge]
  simp only [Multiverse.empty]
  congr 1
  · exact Finset.empty_union s
  · ext x
    simp only [Finset.mem_image, Finset.mem_filter, Finset.mem_product,
      Finset.mem_singleton]
    constructor
    · rintro ⟨⟨a, b⟩, ⟨⟨ha, hb⟩, _⟩, rfl⟩
      subst ha
      simpa using hb
    · intro hx
      exact ⟨⟨∅, x⟩, ⟨⟨rfl, hx⟩, by simp⟩, by simp⟩

/--
C3: `global_invariants` folds all visible multiverses into a single
multiverse via `merge`, with the fold (which starts from the neutral
`Multiverse::empty` and proceeds in descending key order) beginning from
the global blue-count multiverse stored under the synthetic coordinate key,
and returns the invariants of the fold result.  The hypotheses state the
well-formedness of the visible map: sorted keys, with the synthetic key
present and greatest (as it is for every definition read from the bounded
input grid).
-/
theorem global_invariants_folds_from_global (defn : Defn) (env : Env)
    (cs : Constraints) (g : Multiverse)
    (hs : csorted cs.visible)
    (hg : clookup UNIQUE_COORDS cs.visible = some g)
    (hmax : ∀ e ∈ cs.visible, e.1 ≠ UNIQUE_COORDS → Coords.lt e.1 UNIQUE_COORDS) :
    (cvals cs.visible).reverse =
        g :: (cvals (cs.visible.filter fun e => decide (e.1 ≠ UNIQUE_COORDS))).reverse
    ∧ Multiverse.empty.merge g = g
    ∧ cs.global_invariants defn env =
        globalInvariantsOn defn env
          (g :: (cvals (cs.visible.filter fun e =>
            decide (e.1 ≠ UNIQUE_COORDS))).reverse) := by
  have hstruct := sorted_max_last cs.visible g hs hg hmax
  have hvals : (cvals cs.visible).reverse =
      g :: (cvals (cs.visible.filter fun e => decide (e.1 ≠ UNIQUE_COORDS))).reverse := by
    conv_lhs => rw [hstruct]
    rw [cvals, List.map_append, List.reverse_append]
    simp [cvals]
  exact ⟨hvals, Multiverse.empty_merge g, by
    rw [Constraints.global_invariants, hvals]⟩

/-- Witness for C3 on a two-entry visible map with the synthetic key
last. -/
theorem global_invariants_witness :
    (cvals (Constraints.mk []
        [(⟨0, 0⟩, ⟨{⟨5, 0⟩}, {∅, {⟨5, 0⟩}}⟩), (UNIQUE_COORDS, ⟨{⟨5, 0⟩}, {{⟨5, 0⟩}}⟩)]
        ∅).visible).reverse =
      (⟨{⟨5, 0⟩}, {{⟨5, 0⟩}}⟩ : Multiverse) ::
        (cvals ((Constraints.mk []
          [(⟨0, 0⟩, ⟨{⟨5, 0⟩}, {∅, {⟨5, 0⟩}}⟩), (UNIQUE_COORDS, ⟨{⟨5, 0⟩}, {{⟨5, 0⟩}}⟩)]
          ∅).visible.filter fun e => decide (e.1 ≠ UNIQUE_COORDS))).reverse :=
  (global_invariants_folds_from_global [] ⟨1, 1⟩
    (Constraints.mk []
      [(⟨0, 0⟩, ⟨{⟨5, 0⟩}, {∅, {⟨5, 0⟩}}⟩), (UNIQUE_COORDS, ⟨{⟨5, 0⟩}, {{⟨5, 0⟩}}⟩)] ∅)
    ⟨{⟨5, 0⟩}, {{⟨5, 0⟩}}⟩
    (by constructor <;> simp [Coords.lt, UNIQUE_COORDS])
    (by decide) (by decide)).1

theorem update_sets (l : Cmap Color) :
    ∀ (p : Progress),
      (p.update l).blues =
          p.blues ∪ ((l.filter fun e => decide (e.2 = Color.Blue)).map Prod.fst).toFinset
      ∧ (p.update l).blacks =
          p.blacks ∪ ((l.filter fun e => decide (e.2 = Color.Black)).map Prod.fst).toFinset
      ∧ (p.update l).unknowns = p.unknowns \ (l.map Prod.fst).toFinset := by
  induction l with
  | nil => intro p; simp [Progress.update]
  | cons e t ih =>
      intro p
      rcases e with ⟨c, col⟩
      have hstep : Progress.update p ((c, col) :: t) =
          Progress.update
            (match col with
             | Color.Black => ⟨p.blues, insert c p.blacks, p.unknowns.erase c⟩
             | Color.Blue => ⟨insert c p.blues, p.blacks, p.unknowns.erase c⟩) t := by
        rw [Progress.update, List.foldl_cons, Progress.update]
      rcases col with _ | _
      · rw [hstep]
        rcases ih ⟨insert c p.blues, p.blacks, p.unknowns.erase c⟩ with ⟨h1, h2, h3⟩
        refine ⟨?_, ?_, ?_⟩
        · rw [h1]
          simp [List.filter_cons, Finset.insert_union, Finset.union_insert]
        · rw [h2]
          simp [List.filter_cons]
        · rw [h3]
          ext x
          simp only [Finset.mem_sdiff, Finset.mem_erase, List.map_cons,
            List.toFinset_cons, Finset.mem_insert]
          tauto
      · rw [hstep]
        rcases ih ⟨p.blues, insert c p.blacks, p.unknowns.erase c⟩ with ⟨h1, h2, h3⟩
        refine ⟨?_, ?_, ?_⟩
        · rw [h1]
          simp [List.filter_cons]
        · rw [h2]
          simp [List.filter_cons, Finset.insert_union, Finset.union_insert]
        · rw [h3]
          ext x
          simp only [Finset.mem_sdiff, Finset.mem_erase, List.map_cons,
            List.toFinset_cons, Finset.mem_insert]
          tauto

theorem keys_nodup_unique_val {α : Type} (l : List (Coords × α))
    (h : (l.map Prod.fst).Nodup) {c : Coords} {a b : α}
    (ha : (c, a) ∈ l) (hb : (c, b) ∈ l) : a = b := by
  induction l with
  | nil => cases ha
  | cons e t ih =>
      rw [List.map_cons, List.nodup_cons] at h
      rcases List.mem_cons.mp ha with ha1 | ha1 <;>
        rcases List.mem_cons.mp hb with hb1 | hb1
      · have heq : (c, a) = (c, b) := ha1.trans hb1.symm
        injection heq with heq1 heq2
      · exfalso
        apply h.1
        rw [← ha1]
        simpa using List.mem_map_of_mem Prod.fst hb1
      · exfalso
        apply h.1
        rw [← hb1]
        simpa using List.mem_map_of_mem Prod.fst ha1
      · exact ih h.2 ha1 hb1

theorem clueable_cons (e : Coords × Cell) (d : Defn) :
    clueable (e :: d) =
      if (colorOfCell e.2).isSome then insert e.1 (clueable d) else clueable d := by
  rw [clueable, List.filter_cons]
  by_cases h : (colorOfCell e.2).isSome
  · rw [if_pos (by simpa using h), if_pos h, List.map_cons, List.toFinset_cons]
    rfl
  · rw [if_neg (by simpa using h), if_neg h]
    rfl

theorem of_defn_fold (d : List (Coords × Cell)) :
    ∀ (p : Progress),
      (d.map Prod.fst).Nodup →
      (∀ c ∈ p.blues ∪ p.blacks ∪ p.unknowns, c ∉ d.map Prod.fst) →
      Disjoint p.blues p.blacks → Disjoint p.blues p.unknowns →
      Disjoint p.blacks p.unknowns →
      Disjoint (d.foldl ofDefnStep p).blues (d.foldl ofDefnStep p).blacks
      ∧ Disjoint (d.foldl ofDefnStep p).blues (d.foldl ofDefnStep p).unknowns
      ∧ Disjoint (d.foldl ofDefnStep p).blacks (d.foldl ofDefnStep p).unknowns
      ∧ (d.foldl ofDefnStep p).blues ∪ (d.foldl ofDefnStep p).blacks ∪
          (d.foldl ofDefnStep p).unknowns =
          (p.blues ∪ p.blacks ∪ p.unknowns) ∪ clueable d := by
  induction d with
  | nil =>
      intro p _ _ h1 h2 h3
      exact ⟨h1, h2, h3, by simp [clueable]⟩
  | cons e d ih =>
      intro p hnodup hfresh h1 h2 h3
      rcases e with ⟨c, cell⟩
      rw [List.map_cons, List.nodup_cons] at hnodup
      have hcp : c ∉ p.blues ∧ c ∉ p.blacks ∧ c ∉ p.unknowns := by
        by_contra hc
        push_neg at hc
        have : c ∈ p.blues ∪ p.blacks ∪ p.unknowns := by
          rcases Decidable.em (c ∈ p.blues) with h | h
          · simp [h]
          · rcases Decidable.em (c ∈ p.blacks) with h' | h'
            · simp [h']
            · simp [hc h h']
        exact hfresh c this (by simp)
      have hfresh2 : ∀ x (hins : x ∈ insert c (p.blues ∪ p.blacks ∪ p.unknowns)),
          x ∉ d.map Prod.fst := by
        intro x hins
        rcases Finset.mem_insert.mp hins with rfl | hx
        · exact hnodup.1
        · intro hmem
          exact hfresh x hx (List.mem_cons_of_mem _ hmem)
      have hgen : ∀ (p' : Progress),
          (p' = ⟨insert c p.blues, p.blacks, p.unknowns⟩ ∨
           p' = ⟨p.blues, insert c p.blacks, p.unknowns⟩ ∨
           p' = ⟨p.blues, p.blacks, insert c p.unknowns⟩) →
          Disjoint (d.foldl ofDefnStep p').blues (d.foldl ofDefnStep p').blacks
          ∧ Disjoint (d.foldl ofDefnStep p').blues (d.foldl ofDefnStep p').unknowns
          ∧ Disjoint (d.foldl ofDefnStep p').blacks (d.foldl ofDefnStep p').unknowns
          ∧ (d.foldl ofDefnStep p').blues ∪ (d.foldl ofDefnStep p').blacks ∪
              (d.foldl ofDefnStep p').unknowns =
              (insert c (p.blues ∪ p.blacks ∪ p.unknowns)) ∪ clueable d := by
        intro p' hp'
        have hpu : p'.blues ∪ p'.blacks ∪ p'.unknowns =
            insert c (p.blues ∪ p.blacks ∪ p.unknowns) := by
          rcases hp' with rfl | rfl | rfl <;>
            simp [Finset.insert_union, Finset.union_insert]
        have hd1 : Disjoint p'.blues p'.blacks := by
          rcases hp' with rfl | rfl | rfl <;>
            simp [Finset.disjoint_insert_left, Finset.disjoint_insert_right,
              h1, hcp.1, hcp.2.1]
        have hd2 : Disjoint p'.blues p'.unknowns := by
          rcases hp' with rfl | rfl | rfl <;>
            simp [Finset.disjoint_insert_left, Finset.disjoint_insert_right,
              h2, hcp.1, hcp.2.2]
        have hd3 : Disjoint p'.blacks p'.unknowns := by
          rcases hp' with rfl | rfl | rfl <;>
            simp [Finset.disjoint_insert_left, Finset.disjoint_insert_right,
              h3, hcp.2.1, hcp.2.2]
        have := ih p' hnodup.2 (by rw [hpu]; exact hfresh2) hd1 hd2 hd3
        rw [hpu] at this
        exact this
      rcases cell with _ | _ | ⟨rev, col⟩ | ⟨rev⟩ | ⟨rev⟩
      · rw [List.foldl_cons]
        have hstep : ofDefnStep p (c, Cell.Empty) = p := rfl
        rw [hstep]
        have := ih p hnodup.2
          (fun x hx hmem => hfresh x hx (List.mem_cons_of_mem _ hmem)) h1 h2 h3
        refine ⟨this.1, this.2.1, this.2.2.1, ?_⟩
        rw [this.2.2.2, clueable_cons]
        simp [colorOfCell]
      · rw [List.foldl_cons]
        have hstep : ofDefnStep p (c, Cell.Line) = p := rfl
        rw [hstep]
        have := ih p hnodup.2
          (fun x hx hmem => hfresh x hx (List.mem_cons_of_mem _ hmem)) h1 h2 h3
        refine ⟨this.1, this.2.1, this.2.2.1, ?_⟩
        rw [this.2.2.2, clueable_cons]
        simp [colorOfCell]
      · rw [List.foldl_cons]
        have hcl : clueable ((c, Cell.Zone0 rev col) :: d) = insert c (clueable d) := by
          rw [clueable_cons]; simp [colorOfCell]
        rcases rev with _ | _
        · have hstep : ofDefnStep p (c, Cell.Zone0 false col) =
              ⟨p.blues, p.blacks, insert c p.unknowns⟩ := rfl
          rw [hstep]
          have := hgen _ (Or.inr (Or.inr rfl))
          refine ⟨this.1, this.2.1, this.2.2.1, ?_⟩
          rw [this.2.2.2, hcl]
          simp [Finset.insert_union, Finset.union_insert]
        · rcases col with _ | _
          · have hstep : ofDefnStep p (c, Cell.Zone0 true Color.Blue) =
                ⟨insert c p.blues, p.blacks, p.unknowns⟩ := rfl
            rw [hstep]
            have := hgen _ (Or.inl rfl)
            refine ⟨this.1, this.2.1, this.2.2.1, ?_⟩
            rw [this.2.2.2, hcl]
            simp [Finset.insert_union, Finset.union_insert]
          · have hstep : ofDefnStep p (c, Cell.Zone0 true Color.Black) =
                ⟨p.blues, insert c p.blacks, p.unknowns⟩ := rfl
            rw [hstep]
            have := hgen _ (Or.inr (Or.inl rfl))
            refine ⟨this.1, this.2.1, this.2.2.1, ?_⟩
            rw [this.2.2.2, hcl]
            simp [Finset.insert_union, Finset.union_insert]
      · rw [List.foldl_cons]
        have hcl : clueable ((c, Cell.Zone6 rev) :: d) = insert c (clueable d) := by
          rw [clueable_cons]; simp [colorOfCell]
        rcases rev with _ | _
        · have hstep : ofDefnStep p (c, Cell.Zone6 false) =
              ⟨p.blues, p.blacks, insert c p.unknowns⟩ := rfl
          rw [hstep]
          have := hgen _ (Or.inr (Or.inr rfl))
          refine ⟨this.1, this.2.1, this.2.2.1, ?_⟩
          rw [this.2.2.2, hcl]
          simp [Finset.insert_union, Finset.union_insert]
        · have hstep : ofDefnStep p (c, Cell.Zone6 true) =
              ⟨p.blues, insert c p.blacks, p.unknowns⟩ := rfl
          rw [hstep]
          have := hgen _ (Or.inr (Or.inl rfl))
          refine ⟨this.1, this.2.1, this.2.2.1, ?_⟩
          rw [this.2.2.2, hcl]
          simp [Finset.insert_union, Finset.union_insert]
      · rw [List.foldl_cons]
        have hcl : clueable ((c, Cell.Zone18 rev) :: d) = insert c (clueable d) := by
          rw [clueable_cons]; simp [colorOfCell]
        rcases rev with _ | _
        · have hstep : ofDefnStep p (c, Cell.Zone18 false) =
              ⟨p.blues, p.blacks, insert c p.unknowns⟩ := rfl
          rw [hstep]
          have := hgen _ (Or.inr (Or.inr rfl))
          refine ⟨this.1, this.2.1, this.2.2.1, ?_⟩
          rw [this.2.2.2, hcl]
          simp [Finset.insert_union, Finset.union_insert]
        · have hstep : ofDefnStep p (c, Cell.Zone18 true) =
              ⟨insert c p.blues, p.blacks, p.unknowns⟩ := rfl
          rw [hstep]
          have := hgen _ (Or.inl rfl)
          refine ⟨this.1, this.2.1, this.2.2.1, ?_⟩
          rw [this.2.2.2, hcl]
          simp [Finset.insert_union, Finset.union_insert]

theorem update_keys_split (l : Cmap Color) :
    ((l.filter fun e => decide (e.2 = Color.Blue)).map Prod.fst).toFinset ∪
      ((l.filter fun e => decide (e.2 = Color.Black)).map Prod.fst).toFinset =
      (l.map Prod.fst).toFinset := by
  ext x
  simp only [Finset.mem_union, List.mem_toFinset, List.mem_map, List.mem_filter,
    decide_eq_true_eq]
  constructor
  · rintro (⟨e, ⟨he, _⟩, rfl⟩ | ⟨e, ⟨he, _⟩, rfl⟩) <;> exact ⟨e, he, rfl⟩
  · rintro ⟨e, he, rfl⟩
    rcases hc : e.2 with _ | _
    · exact Or.inl ⟨e, ⟨he, hc⟩, rfl⟩
    · exact Or.inr ⟨e, ⟨he, hc⟩, rfl⟩

theorem update_keys_disjoint (l : Cmap Color) (hnodup : (l.map Prod.fst).Nodup) :
    Disjoint ((l.filter fun e => decide (e.2 = Color.Blue)).map Prod.fst).toFinset
      ((l.filter fun e => decide (e.2 = Color.Black)).map Prod.fst).toFinset := by
  rw [Finset.disjoint_left]
  intro x hxB hxK
  simp only [List.mem_toFinset, List.mem_map, List.mem_filter, decide_eq_true_eq] at hxB hxK
  rcases hxB with ⟨e1, ⟨he1, hc1⟩, hx1⟩
  rcases hxK with ⟨e2, ⟨he2, hc2⟩, hx2⟩
  have he1' : (x, Color.Blue) ∈ l := by
    rcases e1 with ⟨k, v⟩
    simp only at hx1 hc1
    rw [← hx1, ← hc1]
    exact he1
  have he2' : (x, Color.Black) ∈ l := by
    rcases e2 with ⟨k, v⟩
    simp only at hx2 hc2
    rw [← hx2, ← hc2]
    exact he2
  cases keys_nodup_unique_val l hnodup he1' he2'

/--
C7: the three sets `blues`, `blacks`, `unknowns` of a `Progress` value built
by `of_defn` are pairwise disjoint and their union is exactly the clueable
cells (`Zone0`, `Zone6`, `Zone18`) of the definition; assuming every
coordinate passed to `update` is currently in `unknowns`, `update` preserves
this partition, and cells move only from `unknowns` into `blues` or
`blacks`, never in the other direction.
-/
theorem progress_partition_monotone (defn : Defn)
    (hnodup : (defn.map Prod.fst).Nodup) :
    PartitionOk defn (Progress.of_defn defn)
    ∧ ∀ (p : Progress) (l : Cmap Color),
        PartitionOk defn p → (l.map Prod.fst).Nodup →
        (∀ e ∈ l, e.1 ∈ p.unknowns) →
        PartitionOk defn (p.update l)
        ∧ p.blues ⊆ (p.update l).blues
        ∧ p.blacks ⊆ (p.update l).blacks
        ∧ (p.update l).unknowns ⊆ p.unknowns := by
  constructor
  · have h := of_defn_fold defn ⟨∅, ∅, ∅⟩ hnodup (by simp) (by simp) (by simp) (by simp)
    exact ⟨h.1, h.2.1, h.2.2.1, by simpa [Progress.of_defn] using h.2.2.2⟩
  · intro p l hpart hlnodup hlun
    rcases update_sets l p with ⟨hb, hk, hu⟩
    rcases hpart with ⟨hd1, hd2, hd3, hcov⟩
    have hKsub : (l.map Prod.fst).toFinset ⊆ p.unknowns := by
      intro x hx
      simp only [List.mem_toFinset, List.mem_map] at hx
      rcases hx with ⟨e, he, rfl⟩
      exact hlun e he
    have hKBsub : ((l.filter fun e => decide (e.2 = Color.Blue)).map Prod.fst).toFinset ⊆
        (l.map Prod.fst).toFinset := by
      rw [← update_keys_split l]
      exact Finset.subset_union_left
    have hKKsub : ((l.filter fun e => decide (e.2 = Color.Black)).map Prod.fst).toFinset ⊆
        (l.map Prod.fst).toFinset := by
      rw [← update_keys_split l]
      exact Finset.subset_union_right
    have hKdisj : Disjoint (l.map Prod.fst).toFinset
        (p.unknowns \ (l.map Prod.fst).toFinset) :=
      Finset.sdiff_disjoint.symm
    refine ⟨⟨?_, ?_, ?_, ?_⟩, ?_, ?_, ?_⟩
    · rw [hb, hk]
      rw [Finset.disjoint_union_left, Finset.disjoint_union_right,
        Finset.disjoint_union_right]
      exact ⟨⟨hd1, hd2.mono_right (hKKsub.trans hKsub)⟩,
        ⟨(hd3.mono_right (hKBsub.trans hKsub)).symm, update_keys_disjoint l hlnodup⟩⟩
    · rw [hb, hu]
      rw [Finset.disjoint_union_left]
      exact ⟨hd2.mono_right Finset.sdiff_subset, hKdisj.mono_left hKBsub⟩
    · rw [hk, hu]
      rw [Finset.disjoint_union_left]
      exact ⟨hd3.mono_right Finset.sdiff_subset, hKdisj.mono_left hKKsub⟩
    · rw [hb, hk, hu, ← hcov]
      ext x
      simp only [Finset.mem_union, Finset.mem_sdiff, List.mem_toFinset]
      constructor
      · rintro (((hx | hx) | (hx | hx)) | ⟨hx, _⟩)
        · exact Or.inl (Or.inl hx)
        · exact Or.inr (hKsub (hKBsub (by simpa using hx)))
        · exact Or.inl (Or.inr hx)
        · exact Or.inr (hKsub (hKKsub (by simpa using hx)))
        · exact Or.inr hx
      · intro hx
        rcases hx with (hx | hx) | hx
        · exact Or.inl (Or.inl (Or.inl hx))
        · exact Or.inl (Or.inr (Or.inl hx))
        · by_cases hkx : x ∈ (l.map Prod.fst).toFinset
          · rw [← update_keys_split l] at hkx
            rcases Finset.mem_union.mp hkx with hkx | hkx
            · exact Or.inl (Or.inl (Or.inr (by simpa using hkx)))
            · exact Or.inl (Or.inr (Or.inr (by simpa using hkx)))
          · exact Or.inr ⟨hx, by simpa using hkx⟩
    · rw [hb]; exact Finset.subset_union_left
    · rw [hk]; exact Finset.subset_union_left
    · rw [hu]; exact Finset.sdiff_subset

/-- Witness for C7 on a two-cell definition, updating the one unknown
cell. -/
theorem progress_partition_witness :
    PartitionOk
      [(⟨0, 0⟩, Cell.Zone0 true Color.Blue), (⟨1, 0⟩, Cell.Zone0 false Color.Black)]
      ((Progress.of_defn
        [(⟨0, 0⟩, Cell.Zone0 true Color.Blue), (⟨1, 0⟩, Cell.Zone0 false Color.Black)]).update
        [(⟨1, 0⟩, Color.Black)]) :=
  ((progress_partition_monotone
      [(⟨0, 0⟩, Cell.Zone0 true Color.Blue), (⟨1, 0⟩, Cell.Zone0 false Color.Black)]
      (by decide)).2
    (Progress.of_defn
      [(⟨0, 0⟩, Cell.Zone0 true Color.Blue), (⟨1, 0⟩, Cell.Zone0 false Color.Black)])
    [(⟨1, 0⟩, Color.Black)]
    (progress_partition_monotone
      [(⟨0, 0⟩, Cell.Zone0 true Color.Blue), (⟨1, 0⟩, Cell.Zone0 false Color.Black)]
      (by decide)).1
    (by decide) (by decide)).1

theorem mem_cinsert {α : Type} (k : Coords) (v : α) (l : Cmap α) :
    ∀ e ∈ cinsert k v l, e = (k, v) ∨ e ∈ l := by
  induction l with
  | nil =>
      intro e he
      rw [cinsert] at he
      exact Or.inl (by simpa using he)
  | cons hd t ih =>
      intro e he
      rw [cinsert] at he
      split_ifs at he
      · rcases List.mem_cons.mp he with h | h
        · exact Or.inl h
        · exact Or.inr h
      · rcases List.mem_cons.mp he with h | h
        · exact Or.inl h
        · exact Or.inr (List.mem_cons_of_mem _ h)
      · rcases List.mem_cons.mp he with h | h
        · exact Or.inr (h ▸ List.mem_cons_self _ _)
        · rcases ih e h with h' | h'
          · exact Or.inl h'
          · exact Or.inr (List.mem_cons_of_mem _ h')

/-- Every pair in the output of `addPairsChecked` passed the ground-truth
assertion (or was already in the accumulator). -/
theorem addPairsChecked_mem (defn : Defn) (ps : List (Coords × Color)) :
    ∀ (inv inv' : Cmap Color), addPairsChecked defn ps inv = some inv' →
      (∀ e ∈ inv, defnColor defn e.1 = some e.2) →
      ∀ e ∈ inv', defnColor defn e.1 = some e.2 := by
  induction ps with
  | nil =>
      intro inv inv' h hin
      rw [addPairsChecked] at h
      cases h
      exact hin
  | cons p ps ih =>
      intro inv inv' h hin
      rcases p with ⟨c, col⟩
      rw [addPairsChecked] at h
      have hnext : ∀ (hcol : defnColor defn c = some col),
          (∀ e ∈ cinsert c col inv, defnColor defn e.1 = some e.2) := by
        intro hcol e he
        rcases mem_cinsert c col inv e he with rfl | he'
        · exact hcol
        · exact hin e he'
      rcases hl : clookup c inv with _ | col'
      · simp only [hl] at h
        split_ifs at h with hcol
        · exact ih _ _ h (hnext hcol)
      · simp only [hl] at h
        split_ifs at h with hcc hcol
        · exact ih _ _ h (hnext hcol)

theorem trivialInvariants_mem (defn : Defn) (mvs : List Multiverse) :
    ∀ (inv inv' : Cmap Color), trivialInvariants defn mvs inv = some inv' →
      (∀ e ∈ inv, defnColor defn e.1 = some e.2) →
      ∀ e ∈ inv', defnColor defn e.1 = some e.2 := by
  induction mvs with
  | nil =>
      intro inv inv' h hin
      rw [trivialInvariants] at h
      cases h
      exact hin
  | cons mv mvs ih =>
      intro inv inv' h hin
      rw [trivialInvariants] at h
      rcases ha : addPairsChecked defn mv.invariants inv with _ | inv2 <;> rw [ha] at h
      · cases h
      · exact ih _ _ h (addPairsChecked_mem defn mv.invariants inv inv2 ha hin)

theorem collectPairs_mem (defn : Defn) (ps : List (Coords × Color)) :
    ∀ (inv inv' : Cmap Color), collectPairs defn ps inv = some inv' →
      (∀ e ∈ inv, defnColor defn e.1 = some e.2) →
      ∀ e ∈ inv', defnColor defn e.1 = some e.2 := by
  induction ps with
  | nil =>
      intro inv inv' h hin
      rw [collectPairs] at h
      cases h
      exact hin
  | cons p ps ih =>
      intro inv inv' h hin
      rcases p with ⟨c, col⟩
      rw [collectPairs] at h
      split_ifs at h with hcol
      refine ih _ _ h ?_
      intro e he
      rcases mem_cinsert c col inv e he with rfl | he'
      · exact hcol
      · exact hin e he'

theorem collectGroups_mem (defn : Defn) (gs : Groups) :
    ∀ (inv inv' : Cmap Color), collectGroups defn gs inv = some inv' →
      (∀ e ∈ inv, defnColor defn e.1 = some e.2) →
      ∀ e ∈ inv', defnColor defn e.1 = some e.2 := by
  induction gs with
  | nil =>
      intro inv inv' h hin
      rw [collectGroups] at h
      cases h
      exact hin
  | cons g gs ih =>
      intro inv inv' h hin
      rw [collectGroups] at h
      rcases ha : collectPairs defn g.2.invariants inv with _ | inv2 <;> rw [ha] at h
      · cases h
      · exact ih _ _ h (collectPairs_mem defn g.2.invariants inv inv2 ha hin)

theorem compoundLoop_ok_mem (defn : Defn) (visible : Cmap Multiverse)
    (connections : Coords → Finset Coords) :
    ∀ (fuel it : Nat) (env : Env) (groups : Groups) (inv : Cmap Color) (diff : Nat)
      (inv' : Cmap Color) (d' : Nat) (env' : Env),
      compoundLoop defn visible connections fuel it env groups inv diff = .ok inv' d' env' →
      (∀ e ∈ inv, defnColor defn e.1 = some e.2) →
      ∀ e ∈ inv', defnColor defn e.1 = some e.2 := by
  intro fuel
  induction fuel with
  | zero => intro it env groups inv diff inv' d' env' h; cases h
  | succ fuel ih =>
      intro it env groups inv diff inv' d' env' h hin
      rw [compoundLoop] at h
      split at h
      · cases h
      · split at h
        · cases h
        · rename_i env1 ht inv2 hc
          have hinv2 := collectGroups_mem defn _ inv inv2 hc hin
          split_ifs at h with h1 h2 h3
          · cases h
            exact hinv2
          · cases h
            exact hinv2
          · exact ih _ _ _ _ _ _ _ _ h hinv2
          · cases h
            exact hinv2

/--
C4: every (coordinate, color) pair emitted by `trivial_invariants`,
`compound_invariants` or `global_invariants` — and therefore every
coordinate recorded in the findings the solver loop pushes to the history —
equals the definition's ground-truth color for that cell; each function
asserts this against the definition before returning (a failed assertion is
a panic, so a successful return carries only ground-truth pairs).
-/
theorem emitted_invariants_match_definition :
    (∀ (defn : Defn) (cs : Constraints) (inv : Cmap Color),
        cs.trivial_invariants defn = some inv →
        ∀ e ∈ inv, defnColor defn e.1 = some e.2)
    ∧ (∀ (defn : Defn) (env : Env) (cs : Constraints) (inv : Cmap Color) (d : Nat)
        (env' : Env),
        cs.compound_invariants defn env = .ok inv d env' →
        ∀ e ∈ inv, defnColor defn e.1 = some e.2)
    ∧ (∀ (defn : Defn) (env : Env) (cs : Constraints) (inv : Cmap Color) (env' : Env),
        cs.global_invariants defn env = .ok inv env' →
        ∀ e ∈ inv, defnColor defn e.1 = some e.2)
    ∧ (∀ (defn : Defn) (env : Env) (p : Progress) (cs : Constraints) (env' : Env)
        (p' : Progress) (cs' : Constraints) (f : Findings) (inv : Cmap Color),
        solveStep defn env p cs = .next env' p' cs' f inv →
        f.cells = (ckeys inv).toFinset ∧ p' = p.update inv ∧
        ∀ e ∈ inv, defnColor defn e.1 = some e.2) := by
  have htriv : ∀ (defn : Defn) (cs : Constraints) (inv : Cmap Color),
      cs.trivial_invariants defn = some inv →
      ∀ e ∈ inv, defnColor defn e.1 = some e.2 := by
    intro defn cs inv h
    exact trivialInvariants_mem defn (cvals cs.visible) [] inv h (by simp)
  have hcomp : ∀ (defn : Defn) (env : Env) (cs : Constraints) (inv : Cmap Color)
      (d : Nat) (env' : Env),
      cs.compound_invariants defn env = .ok inv d env' →
      ∀ e ∈ inv, defnColor defn e.1 = some e.2 := by
    intro defn env cs inv d env' h
    rw [Constraints.compound_invariants, compoundInvariantsFuel] at h
    split_ifs at h
    · cases h; simp
    · exact compoundLoop_ok_mem defn cs.visible (connectionsOf cs.visible)
        1002 0 env _ [] 2 inv d env' h (by simp)
  have hglob : ∀ (defn : Defn) (env : Env) (cs : Constraints) (inv : Cmap Color)
      (env' : Env),
      cs.global_invariants defn env = .ok inv env' →
      ∀ e ∈ inv, defnColor defn e.1 = some e.2 := by
    intro defn env cs inv env' h
    rw [Constraints.global_invariants, globalInvariantsOn] at h
    split at h
    · cases h
    · split at h
      · cases h
      · rename_i mv env1 hf inv2 ha
        cases h
        exact addPairsChecked_mem defn _ [] _ ha (by simp)
  refine ⟨htriv, hcomp, hglob, ?_⟩
  intro defn env p cs env' p' cs' f inv h
  rw [solveStep] at h
  split at h
  · cases h
  · rename_i cs3 hgc
    by_cases hsol : p.isSolved
    · rw [if_pos hsol] at h
      split_ifs at h <;> cases h
    · rw [if_neg hsol] at h
      by_cases hcsol : cs3.isSolved
      · rw [if_pos hcsol] at h
        cases h
      · rw [if_neg hcsol] at h
        rw [solveStepTiers] at h
        split at h
        · cases h
        · rename_i inv1 htr
          by_cases h1 : inv1 = []
          · rw [if_pos h1] at h
            split at h
            · cases h
            · cases h
            · rename_i inv2 d2 env2 hco
              by_cases h2 : inv2 = []
              · rw [if_pos h2] at h
                split at h
                · cases h
                · cases h
                · rename_i inv3 env3 hgl
                  by_cases h3 : inv3 = []
                  · rw [if_pos h3] at h
                    cases h
                  · rw [if_neg h3] at h
                    cases h
                    exact ⟨rfl, rfl, hglob _ _ _ _ _ hgl⟩
              · rw [if_neg h2] at h
                cases h
                exact ⟨rfl, rfl, hcomp _ _ _ _ _ _ hco⟩
          · rw [if_neg h1] at h
            cases h
            exact ⟨rfl, rfl, htriv _ _ _ htr⟩

theorem compoundLoop_fuel_irrelevant (defn : Defn) (visible : Cmap Multiverse)
    (connections : Coords → Finset Coords) :
    ∀ (f1 f2 it : Nat) (env : Env) (groups : Groups) (inv : Cmap Color) (diff : Nat),
      1 ≤ f1 → 1001 ≤ f1 + it → 1 ≤ f2 → 1001 ≤ f2 + it →
      compoundLoop defn visible connections f1 it env groups inv diff =
        compoundLoop defn visible connections f2 it env groups inv diff := by
  intro f1
  induction f1 with
  | zero => intro f2 it env groups inv diff h1; omega
  | succ f1 ih =>
      intro f2 it env groups inv diff h1 h2 h3 h4
      rcases f2 with _ | f2
      · omega
      · rw [compoundLoop, compoundLoop]
        split
        · rfl
        · split
          · rfl
          · rename_i x1 env1 heq1 x2 inv2 heq2
            by_cases hi : inv2 = []
            · rw [if_pos hi, if_pos hi]
              by_cases hg : growStep visible connections groups = []
              · rw [if_pos hg, if_pos hg]
              · rw [if_neg hg, if_neg hg]
                by_cases hcap : it + 1 > 1000
                · rw [if_pos hcap, if_pos hcap]
                · rw [if_neg hcap, if_neg hcap]
                  exact ih f2 (it + 1) env1 _ inv2 (diff + 1)
                    (by omega) (by omega) (by omega) (by omega)
            · rw [if_neg hi, if_neg hi]

/--
C8: `compound_invariants` always terminates: the iteration loop stops when
some invariant has been found, when the working set of groups becomes empty,
or when the safety cap of 1000 iterations is hit — so the loop's result is
independent of any fuel beyond the cap's bound, and the fuel-indexed
embedding equals `compound_invariants` for every sufficient fuel.
-/
theorem compound_invariants_always_terminates :
    (∀ (defn : Defn) (visible : Cmap Multiverse)
        (connections : Coords → Finset Coords) (f1 f2 it : Nat) (env : Env)
        (groups : Groups) (inv : Cmap Color) (diff : Nat),
        1 ≤ f1 → 1001 ≤ f1 + it → 1 ≤ f2 → 1001 ≤ f2 + it →
        compoundLoop defn visible connections f1 it env groups inv diff =
          compoundLoop defn visible connections f2 it env groups inv diff)
    ∧ (∀ (defn : Defn) (env : Env) (cs : Constraints) (f : Nat), 1002 ≤ f →
        compoundInvariantsFuel f defn env cs = cs.compound_invariants defn env) := by
  constructor
  · intro defn visible connections f1 f2 it env groups inv diff h1 h2 h3 h4
    exact compoundLoop_fuel_irrelevant defn visible connections f1 f2 it env groups
      inv diff h1 h2 h3 h4
  · intro defn env cs f hf
    rw [Constraints.compound_invariants, compoundInvariantsFuel, compoundInvariantsFuel]
    by_cases hg : initialGroups cs.visible = []
    · rw [if_pos hg, if_pos hg]
    · rw [if_neg hg, if_neg hg]
      exact compoundLoop_fuel_irrelevant defn cs.visible (connectionsOf cs.visible)
        f 1002 0 env _ [] 2 (by omega) (by omega) (by omega) (by omega)

/-- Witness for C8 at fuel 5000 on a small registry. -/
theorem compound_invariants_terminates_witness :
    compoundInvariantsFuel 5000 [] ⟨1, 1⟩ (Constraints.mk [] [] ∅) =
      (Constraints.mk [] [] ∅).compound_invariants [] ⟨1, 1⟩ :=
  compound_invariants_always_terminates.2 [] ⟨1, 1⟩ (Constraints.mk [] [] ∅) 5000
    (by decide)

theorem solveStep_gc_some (defn : Defn) (env : Env) (p : Progress) (cs : Constraints)
    (cs3 : Constraints)
    (hgc : ((cs.reveal (p.blacks ∪ p.blues)).narrow (p.blacks ∪ p.blues) p).gc =
      some cs3) :
    solveStep defn env p cs =
      if p.isSolved then
        (if cs3.isSolved then .outcome (.Solved []) else .panic)
      else if cs3.isSolved then .panic
      else solveStepTiers defn env p cs3 := by
  rw [solveStep]
  split
  · rename_i heq
    rw [heq] at hgc
    cases hgc
  · rename_i x cs3' heq
    rw [heq] at hgc
    injection hgc with h3
    rw [h3]

theorem solveStepTiers_trivial_next (defn : Defn) (env : Env) (p : Progress)
    (cs3 : Constraints) (inv1 : Cmap Color)
    (htr : cs3.trivial_invariants defn = some inv1) (hne : inv1 ≠ []) :
    solveStepTiers defn env p cs3 =
      .next env (p.update inv1) cs3 ⟨.Local 1, (ckeys inv1).toFinset⟩ inv1 := by
  rw [solveStepTiers]
  split
  · rename_i heq
    rw [heq] at htr
    cases htr
  · rename_i x inv1' heq
    rw [heq] at htr
    injection htr with h3
    subst h3
    rw [if_neg hne]

theorem solveStepTiers_compound (defn : Defn) (env : Env) (p : Progress)
    (cs3 : Constraints)
    (htr : cs3.trivial_invariants defn = some []) :
    solveStepTiers defn env p cs3 =
      match cs3.compound_invariants defn env.reset with
      | .timeout => .outcome .Timeout
      | .panic => .panic
      | .ok inv2 d2 env2 =>
          if inv2 = [] then
            match cs3.global_invariants defn env2 with
            | .timeout => .outcome .Timeout
            | .panic => .panic
            | .ok inv3 env3 =>
                if inv3 = [] then .outcome .Unsolvable
                else
                  .next env3 (p.update inv3) cs3
                    ⟨.Global cs3.visible.length, (ckeys inv3).toFinset⟩ inv3
          else
            .next env2 (p.update inv2) cs3
              ⟨.Local d2, (ckeys inv2).toFinset⟩ inv2 := by
  rw [solveStepTiers]
  split
  · rename_i heq
    rw [heq] at htr
    cases htr
  · rename_i x inv1' heq
    rw [heq] at htr
    injection htr with h3
    subst h3
    rw [if_pos rfl]

/--
C6: if the cancellation token reports timeout during `compound_invariants`
or during the merge fold of `global_invariants`, `solve` returns
`Outcome::Timeout` — a constructor carrying no findings — for every
accumulated history: the partial history is discarded.
-/
theorem timeout_discards_history (defn : Defn) (fuel : Nat) (env : Env)
    (p : Progress) (cs : Constraints) (cs3 : Constraints)
    (hgc : ((cs.reveal (p.blacks ∪ p.blues)).narrow (p.blacks ∪ p.blues) p).gc =
      some cs3)
    (hunk : ¬ p.isSolved)
    (hcs : ¬ cs3.isSolved)
    (htr : cs3.trivial_invariants defn = some [])
    (hto : cs3.compound_invariants defn env.reset = .timeout ∨
      (∃ d2 env2, cs3.compound_invariants defn env.reset = .ok [] d2 env2 ∧
        cs3.global_invariants defn env2 = .timeout)) :
    ∀ hist : List Findings, solve defn (fuel + 1) env p cs hist = some .Timeout := by
  intro hist
  have hstep : solveStep defn env p cs = .outcome .Timeout := by
    rw [solveStep_gc_some defn env p cs cs3 hgc, if_neg hunk, if_neg hcs,
      solveStepTiers_compound defn env p cs3 htr]
    rcases hto with hto | ⟨d2, env2, hco, hgl⟩
    · rw [hto]
    · simp only [hco]
      rw [hgl]
      simp
  rw [solve, hstep]

theorem mem_sinsert (c x : Coords) (l : List Coords) :
    x ∈ sinsert c l ↔ x = c ∨ x ∈ l := by
  induction l with
  | nil => simp [sinsert]
  | cons hd t ih =>
      rw [sinsert]
      split_ifs with h1 h2
      · simp only [List.mem_cons]
      · subst h2
        simp only [List.mem_cons]
        tauto
      · simp only [List.mem_cons, ih]
        tauto

theorem mem_csort (s : Finset Coords) (x : Coords) :
    x ∈ csort s ↔ x ∈ s := by
  rw [csort, Finset.mem_def]
  generalize s.val = m
  induction m using Multiset.induction_on with
  | empty => simp [Multiset.foldr_zero]
  | cons a m ih =>
      rw [Multiset.foldr_cons, mem_sinsert, ih]
      simp

theorem clookup_mem {α : Type} {k : Coords} {v : α} :
    ∀ {l : Cmap α}, clookup k l = some v → (k, v) ∈ l := by
  intro l
  induction l with
  | nil => intro h; cases h
  | cons e t ih =>
      intro h
      rw [clookup] at h
      split_ifs at h with he
      · cases h
        rcases e with ⟨k', v'⟩
        simp only at he
        subst he
        exact List.mem_cons_self _ _
      · exact List.mem_cons_of_mem _ (ih h)

theorem mem_ckeys_lookup {α : Type} {k : Coords} :
    ∀ {l : Cmap α}, k ∈ ckeys l → ∃ v, clookup k l = some v := by
  intro l
  induction l with
  | nil => intro h; cases h
  | cons e t ih =>
      intro h
      rw [clookup]
      by_cases he : e.1 = k
      · exact ⟨e.2, if_pos he⟩
      · rw [if_neg he]
        rcases List.mem_cons.mp h with h1 | h1
        · exact absurd h1.symm he
        · exact ih h1

theorem dlookup_mem {c : Coords} {cell : Cell} :
    ∀ {defn : Defn}, dlookup c defn = some cell → (c, cell) ∈ defn := by
  intro defn
  induction defn with
  | nil => intro h; cases h
  | cons e t ih =>
      intro h
      rw [dlookup] at h
      split_ifs at h with he
      · cases h
        rcases e with ⟨c', cell'⟩
        simp only at he
        subst he
        exact List.mem_cons_self _ _
      · exact List.mem_cons_of_mem _ (ih h)

theorem dlookup_of_mem {c : Coords} {cell : Cell} :
    ∀ {defn : Defn}, (defn.map Prod.fst).Nodup → (c, cell) ∈ defn →
      dlookup c defn = some cell := by
  intro defn
  induction defn with
  | nil => intro _ h; cases h
  | cons e t ih =>
      intro hnodup h
      rw [List.map_cons, List.nodup_cons] at hnodup
      rw [dlookup]
      rcases List.mem_cons.mp h with h1 | h1
      · rw [← h1]
        exact if_pos rfl
      · rw [if_neg ?_]
        · exact ih hnodup.2 h1
        · intro he
          apply hnodup.1
          rw [he]
          exact List.mem_map_of_mem Prod.fst h1

theorem mem_clueable_iff {defn : Defn} (hnodup : (defn.map Prod.fst).Nodup)
    (c : Coords) : c ∈ clueable defn ↔ (defnColor defn c).isSome := by
  rw [clueable]
  simp only [List.mem_toFinset, List.mem_map, List.mem_filter]
  constructor
  · rintro ⟨e, ⟨he, hsome⟩, rfl⟩
    rcases e with ⟨c, cell⟩
    rw [defnColor, dlookup_of_mem hnodup he]
    exact hsome
  · intro h
    rw [defnColor] at h
    rcases hd : dlookup c defn with _ | cell
    · rw [hd] at h; cases h
    · rw [hd] at h
      exact ⟨(c, cell), ⟨dlookup_mem hd, h⟩, rfl⟩

theorem mem_truthBlue_iff {defn : Defn} (hnodup : (defn.map Prod.fst).Nodup)
    (c : Coords) : c ∈ truthBlue defn ↔ defnColor defn c = some Color.Blue := by
  rw [truthBlue]
  simp only [List.mem_toFinset, List.mem_map, List.mem_filter, decide_eq_true_eq]
  constructor
  · rintro ⟨e, ⟨he, hblue⟩, rfl⟩
    rcases e with ⟨c, cell⟩
    rw [defnColor, dlookup_of_mem hnodup he]
    exact hblue
  · intro h
    rw [defnColor] at h
    rcases hd : dlookup c defn with _ | cell
    · rw [hd] at h; cases h
    · rw [hd] at h
      exact ⟨(c, cell), ⟨dlookup_mem hd, h⟩, rfl⟩

/-- Scope of a `learn`: the coordinate is removed. -/
theorem learn_scope (m : Multiverse) (c : Coords) (col : Color) :
    (m.learn c col).scope = m.scope.erase c := by
  rw [Multiverse.learn]
  split_ifs with h
  · rfl
  · rw [Finset.erase_eq_self.mpr h]

/-- `learn` with the ground-truth color keeps the ground-truth world. -/
theorem learn_truth (m : Multiverse) (c : Coords) (col : Color) (T : Finset Coords)
    (hc : c ∈ T ↔ col = Color.Blue) (hT : T ∩ m.scope ∈ m.worlds) :
    T ∩ (m.learn c col).scope ∈ (m.learn c col).worlds := by
  rw [Multiverse.learn]
  split_ifs with h
  · simp only
    refine Finset.mem_image.mpr ⟨T ∩ m.scope, Finset.mem_filter.mpr ⟨hT, ?_⟩, ?_⟩
    · rw [← hc]
      simp [h]
    · ext x
      simp only [Finset.mem_erase, Finset.mem_inter]
      tauto
  · exact hT

/-- `merge` unions the scopes. -/
theorem merge_scope (m1 m2 : Multiverse) :
    (m1.merge m2).scope = m1.scope ∪ m2.scope := rfl

/-- `merge` keeps the ground-truth world. -/
theorem merge_truth (m1 m2 : Multiverse) (T : Finset Coords)
    (h1 : T ∩ m1.scope ∈ m1.worlds) (h2 : T ∩ m2.scope ∈ m2.worlds) :
    T ∩ (m1.merge m2).scope ∈ (m1.merge m2).worlds := by
  rw [Multiverse.merge]
  simp only
  refine Finset.mem_image.mpr ⟨(T ∩ m1.scope, T ∩ m2.scope), Finset.mem_filter.mpr
    ⟨Finset.mem_product.mpr ⟨h1, h2⟩, ?_⟩, ?_⟩
  · rw [Finset.inter_assoc, Finset.inter_assoc, Finset.inter_comm m1.scope m2.scope]
  · rw [← Finset.inter_union_distrib_left]

/-- Soundness of `invariants`: emitted coordinates are in the scope, and in
the presence of the ground-truth world the emitted color is the
ground-truth color. -/
theorem invariants_sound (m : Multiverse) (pr : Coords × Color)
    (h : pr ∈ m.invariants) :
    pr.1 ∈ m.scope ∧
    ∀ T : Finset Coords, T ∩ m.scope ∈ m.worlds →
      (pr.1 ∈ T ↔ pr.2 = Color.Blue) := by
  rw [Multiverse.invariants] at h
  rcases List.mem_append.mp h with h1 | h1
  · rcases List.mem_map.mp h1 with ⟨c, hc, rfl⟩
    rw [mem_csort] at hc
    rcases Finset.mem_filter.mp hc with ⟨hscope, _, hall⟩
    refine ⟨hscope, fun T hT => ?_⟩
    have := hall (T ∩ m.scope) hT
    simp only [Finset.mem_inter] at this
    exact ⟨fun _ => rfl, fun _ => this.1⟩
  · rcases List.mem_map.mp h1 with ⟨c, hc, rfl⟩
    rw [mem_csort] at hc
    rcases Finset.mem_filter.mp hc with ⟨hscope, _, hall⟩
    refine ⟨hscope, fun T hT => ?_⟩
    have := hall (T ∩ m.scope) hT
    simp only [Finset.mem_inter, not_and] at this
    constructor
    · intro hTmem
      exact absurd hscope (this hTmem)
    · intro hbk
      cases hbk

/-- A multiverse compatible with the ground truth and scoped inside the
clueable cells emits only ground-truth pairs. -/
theorem truth_pairs {defn : Defn} (hnodup : (defn.map Prod.fst).Nodup)
    (m : Multiverse) (hscope : m.scope ⊆ clueable defn)
    (hT : truthBlue defn ∩ m.scope ∈ m.worlds) :
    ∀ pr ∈ m.invariants, defnColor defn pr.1 = some pr.2 := by
  intro pr hpr
  rcases invariants_sound m pr hpr with ⟨hsc, hcol⟩
  have hiff := hcol (truthBlue defn) hT
  have hclue : (defnColor defn pr.1).isSome := (mem_clueable_iff hnodup pr.1).mp (hscope hsc)
  rcases hb : defnColor defn pr.1 with _ | col
  · rw [hb] at hclue; cases hclue
  · rcases col with _ | _
    · have : pr.1 ∈ truthBlue defn := (mem_truthBlue_iff hnodup pr.1).mpr hb
      rw [hiff.mp this]
    · rcases hc2 : pr.2 with _ | _
      · exfalso
        have : pr.1 ∈ truthBlue defn := hiff.mpr hc2
        rw [mem_truthBlue_iff hnodup pr.1, hb] at this
        cases this
      · rfl

theorem collectPairs_eq_pure (defn : Defn) (ps : List (Coords × Color)) :
    ∀ inv, (∀ pr ∈ ps, defnColor defn pr.1 = some pr.2) →
      collectPairs defn ps inv = some (collectPairsPure ps inv) := by
  induction ps with
  | nil => intro inv _; rfl
  | cons p ps ih =>
      intro inv hall
      rcases p with ⟨c, col⟩
      rw [collectPairs, collectPairsPure]
      rw [if_pos (hall (c, col) (List.mem_cons_self _ _))]
      exact ih _ fun pr hpr => hall pr (List.mem_cons_of_mem _ hpr)

theorem collectGroups_eq_pure (defn : Defn) (gs : Groups) :
    ∀ inv, (∀ e ∈ gs, ∀ pr ∈ e.2.invariants, defnColor defn pr.1 = some pr.2) →
      collectGroups defn gs inv = some (collectGroupsPure gs inv) := by
  induction gs with
  | nil => intro inv _; rfl
  | cons g gs ih =>
      intro inv hall
      rw [collectGroups, collectGroupsPure]
      rw [collectPairs_eq_pure defn g.2.invariants inv
        (hall g (List.mem_cons_self _ _))]
      exact ih _ fun e he => hall e (List.mem_cons_of_mem _ he)

theorem cinsert_ne_nil {α : Type} (k : Coords) (v : α) (l : Cmap α) :
    cinsert k v l ≠ [] := by
  rcases l with _ | ⟨e, t⟩
  · rw [cinsert]; simp
  · rw [cinsert]
    split_ifs <;> simp

theorem collectPairsPure_nil (ps : List (Coords × Color)) :
    ∀ inv, collectPairsPure ps inv = [] → inv = [] := by
  induction ps with
  | nil => intro inv h; exact h
  | cons p ps ih =>
      intro inv h
      rcases p with ⟨c, col⟩
      rw [collectPairsPure] at h
      exact absurd (ih _ h) (cinsert_ne_nil c col inv)

theorem collectGroupsPure_nil (gs : Groups) :
    ∀ inv, collectGroupsPure gs inv = [] → inv = [] := by
  induction gs with
  | nil => intro inv h; exact h
  | cons g gs ih =>
      intro inv h
      rw [collectGroupsPure] at h
      exact collectPairsPure_nil _ _ (ih _ h)

theorem accTrace_empty_mono (visible : Cmap Multiverse)
    (conn : Coords → Finset Coords) :
    ∀ j m, j ≤ m → accTrace visible conn m = [] → accTrace visible conn j = [] := by
  intro j m
  induction m with
  | zero =>
      intro hj h
      rw [Nat.le_zero.mp hj]
      exact h
  | succ m ih =>
      intro hj h
      rcases Nat.lt_or_ge j (m + 1) with hlt | hge
      · rw [accTrace] at h
        exact ih (by omega) (collectGroupsPure_nil _ _ h)
      · rw [Nat.le_antisymm hj hge]
        exact h

theorem growStep_nil (visible : Cmap Multiverse) (conn : Coords → Finset Coords) :
    growStep visible conn [] = [] := rfl

theorem trace_groups_empty (visible : Cmap Multiverse)
    (conn : Coords → Finset Coords) (j : Nat)
    (h : groupsTrace visible conn j = []) :
    ∀ m, j ≤ m → groupsTrace visible conn m = [] ∧
      accTrace visible conn m = accTrace visible conn j := by
  intro m
  induction m with
  | zero =>
      intro hm
      rw [Nat.le_zero.mp hm] at h ⊢
      exact ⟨h, rfl⟩
  | succ m ih =>
      intro hm
      rcases Nat.lt_or_ge j (m + 1) with hlt | hge
      · have hmj : j ≤ m := by omega
        rcases ih hmj with ⟨hg, ha⟩
        constructor
        · rw [groupsTrace, hg, growStep_nil]
        · rw [accTrace, groupsTrace, hg, growStep_nil]
          rw [← ha]
          rfl
      · rw [Nat.le_antisymm hm hge] at h ⊢
        exact ⟨h, rfl⟩

theorem mem_ginsert (k : Finset Coords) (v : Multiverse) (g : Groups) :
    ∀ e ∈ ginsert k v g, e = (k, v) ∨ e ∈ g := by
  induction g with
  | nil =>
      intro e he
      rw [ginsert] at he
      exact Or.inl (by simpa using he)
  | cons hd t ih =>
      intro e he
      rw [ginsert] at he
      split_ifs at he with h1
      · rcases List.mem_cons.mp he with h | h
        · exact Or.inl h
        · exact Or.inr (List.mem_cons_of_mem _ h)
      · rcases List.mem_cons.mp he with h | h
        · exact Or.inr (h ▸ List.mem_cons_self _ _)
        · rcases ih e h with h' | h'
          · exact Or.inl h'
          · exact Or.inr (List.mem_cons_of_mem _ h')

theorem mem_foldl_ginsert (entries : List (Finset Coords × Multiverse)) :
    ∀ (g : Groups) (e : Finset Coords × Multiverse),
      e ∈ entries.foldl (fun g e => ginsert e.1 e.2 g) g → e ∈ g ∨ e ∈ entries := by
  induction entries with
  | nil => intro g e he; exact Or.inl he
  | cons a t ih =>
      intro g e he
      rw [List.foldl_cons] at he
      rcases ih _ e he with h | h
      · rcases mem_ginsert a.1 a.2 g e h with h' | h'
        · exact Or.inr (h' ▸ List.mem_cons_self _ _)
        · exact Or.inl h'
      · exact Or.inr (List.mem_cons_of_mem _ h)

theorem glookup_isSome_of_mem (g : Groups) (e : Finset Coords × Multiverse)
    (he : e ∈ g) : (glookup e.1 g).isSome := by
  induction g with
  | nil => cases he
  | cons hd t ih =>
      rw [glookup]
      by_cases h1 : hd.1 = e.1
      · rw [if_pos h1]; rfl
      · rw [if_neg h1]
        rcases List.mem_cons.mp he with h | h
        · exact absurd (h ▸ rfl) h1
        · exact ih h

theorem growStep_mem (visible : Cmap Multiverse) (conn : Coords → Finset Coords)
    (snapshot : Groups) (e : Finset Coords × Multiverse)
    (he : e ∈ growStep visible conn snapshot) :
    ∃ eo ∈ snapshot, ∃ kN : Coords, (∃ k2 ∈ eo.1, kN ∈ conn k2) ∧ kN ∉ eo.1 ∧
      e.1 = insert kN eo.1 ∧ e.2 = eo.2.merge (vget visible kN) := by
  rw [growStep, List.mem_filter] at he
  rcases mem_foldl_ginsert _ _ _ he.1 with hsnap | hnew
  · exfalso
    have h1 := glookup_isSome_of_mem snapshot e hsnap
    have h2 := he.2
    simp only [Option.isNone_iff_eq_none, decide_eq_true_eq] at h2
    rw [h2] at h1
    cases h1
  · rw [List.mem_flatMap] at hnew
    rcases hnew with ⟨eo, heo, hgrow⟩
    rw [growOne, List.mem_filterMap] at hgrow
    rcases hgrow with ⟨kN, hkN, hsome⟩
    rw [mem_csort] at hkN
    rcases Finset.mem_biUnion.mp hkN with ⟨k2, hk2, hkN2⟩
    rcases Finset.mem_filter.mp hkN2 with ⟨hconn, hnotin⟩
    split_ifs at hsome with hlk
    injection hsome with hpair
    refine ⟨eo, heo, kN, ⟨k2, hk2, hconn⟩, hnotin, ?_, ?_⟩
    · rw [← hpair]
    · rw [← hpair]

theorem connectionsOf_lookup (visible : Cmap Multiverse) (k kN : Coords)
    (h : kN ∈ connectionsOf visible k) :
    ∃ mv, clookup kN visible = some mv := by
  rw [connectionsOf] at h
  split_ifs at h with hU
  · cases h
  · rw [List.mem_toFinset, List.mem_filter] at h
    exact mem_ckeys_lookup h.1

theorem initialGroups_mem (visible : Cmap Multiverse)
    (e : Finset Coords × Multiverse) (he : e ∈ initialGroups visible) :
    ∃ eo ∈ visible, e = ({eo.1}, eo.2) := by
  rw [initialGroups, List.mem_filter] at he
  rcases List.mem_map.mp he.1 with ⟨eo, heo, hEq⟩
  exact ⟨eo, heo, hEq.symm⟩

/-- All groups in the trace are compatible with the ground truth, and their
key sets have `j + 1` constraints after `j` growth iterations. -/
theorem groupsTrace_ok (defn : Defn) (visible : Cmap Multiverse)
    (hvis : ∀ e ∈ visible, e.2.scope ⊆ clueable defn ∧
      truthBlue defn ∩ e.2.scope ∈ e.2.worlds) :
    ∀ j, ∀ e ∈ groupsTrace visible (connectionsOf visible) j,
      (e.2.scope ⊆ clueable defn ∧ truthBlue defn ∩ e.2.scope ∈ e.2.worlds)
      ∧ e.1.card = j + 1 := by
  intro j
  induction j with
  | zero =>
      intro e he
      rcases initialGroups_mem visible e he with ⟨eo, heo, rfl⟩
      exact ⟨hvis eo heo, by simp⟩
  | succ j ih =>
      intro e he
      rw [groupsTrace] at he
      rcases growStep_mem visible (connectionsOf visible) _ e he with
        ⟨eo, heo, kN, ⟨k2, _, hconn⟩, hnotin, hkey, hval⟩
      rcases ih eo heo with ⟨⟨hsc, hT⟩, hcard⟩
      rcases connectionsOf_lookup visible k2 kN hconn with ⟨mvN, hmvN⟩
      have hmvN_mem := clookup_mem hmvN
      rcases hvis (kN, mvN) hmvN_mem with ⟨hscN, hTN⟩
      have hv : vget visible kN = mvN := by rw [vget, hmvN]; rfl
      constructor
      · constructor
        · rw [hval, hv, merge_scope]
          exact Finset.union_subset hsc hscN
        · rw [hval, hv]
          exact merge_truth eo.2 mvN (truthBlue defn) hT hTN
      · rw [hkey, Finset.card_insert_of_not_mem hnotin, hcard]

theorem compoundLoop_trace (defn : Defn) (visible : Cmap Multiverse)
    (k limit rem : Nat)
    (hnodup : (defn.map Prod.fst).Nodup)
    (hvis : ∀ e ∈ visible, e.2.scope ⊆ clueable defn ∧
      truthBlue defn ∩ e.2.scope ∈ e.2.worlds)
    (hk2 : k ≤ 1001) (hrem : k ≤ rem)
    (hprev : ∀ j, j < k → accTrace visible (connectionsOf visible) j = [])
    (hcur : accTrace visible (connectionsOf visible) k ≠ []) :
    ∀ (fuel j : Nat), j < k → k - j ≤ fuel →
      compoundLoop defn visible (connectionsOf visible) fuel j ⟨limit, rem - j⟩
        (groupsTrace visible (connectionsOf visible) j)
        (accTrace visible (connectionsOf visible) j) (j + 2) =
      .ok (accTrace visible (connectionsOf visible) k) (k + 1) ⟨limit, rem - k⟩ := by
  intro fuel
  induction fuel with
  | zero => intro j hj hf; omega
  | succ fuel ih =>
      intro j hj hf
      rw [compoundLoop]
      have hct : Env.checkTimeout ⟨limit, rem - j⟩ = some ⟨limit, rem - (j + 1)⟩ := by
        rw [Env.checkTimeout]
        rw [if_neg (show ¬(rem - j = 0) by omega)]
        have harith : rem - j - 1 = rem - (j + 1) := by omega
        rw [harith]
      simp only [hct]
      have hgrow : growStep visible (connectionsOf visible)
          (groupsTrace visible (connectionsOf visible) j) =
          groupsTrace visible (connectionsOf visible) (j + 1) := rfl
      rw [hgrow]
      have hcoll : collectGroups defn
          (groupsTrace visible (connectionsOf visible) (j + 1))
          (accTrace visible (connectionsOf visible) j) =
          some (accTrace visible (connectionsOf visible) (j + 1)) := by
        rw [accTrace]
        exact collectGroups_eq_pure defn _ _
          (fun e he => truth_pairs hnodup e.2
            (groupsTrace_ok defn visible hvis (j + 1) e he).1.1
            (groupsTrace_ok defn visible hvis (j + 1) e he).1.2)
      simp only [hcoll]
      by_cases hj1 : j + 1 = k
      · have hne : accTrace visible (connectionsOf visible) (j + 1) ≠ [] := by
          rw [hj1]; exact hcur
        rw [if_neg hne]
        subst hj1
        rfl
      · have hj2 : j + 1 < k := by omega
        rw [if_pos (hprev (j + 1) hj2)]
        have hgne : groupsTrace visible (connectionsOf visible) (j + 1) ≠ [] := by
          intro h0
          rcases trace_groups_empty visible (connectionsOf visible) (j + 1) h0 k
            (by omega) with ⟨_, ha⟩
          exact hcur (ha.trans (hprev (j + 1) hj2))
        rw [if_neg hgne]
        rw [if_neg (show ¬(j + 1 > 1000) by omega)]
        have hrec := ih (j + 1) hj2 (by omega)
        rw [hprev (j + 1) hj2] at hrec ⊢
        exact hrec

/--
C2: when `compound_invariants` returns a non-empty invariant map, the
reported difficulty is `Local i` where `i` is the index of the first merge
iteration that produced an invariant, counting from `i = 2` for the first
iteration (pairs of constraints) and incrementing by one per further
iteration; the groups examined at the iteration reported as difficulty `i`
contain exactly `i` constraints.  `k` is the 1-based index of the first
productive iteration, so the reported difficulty is `k + 1` (the Nat the
caller wraps as `Difficulty.Local`).
-/
theorem compound_difficulty_counts_iterations (defn : Defn) (cs : Constraints)
    (env : Env) (k : Nat)
    (hnodup : (defn.map Prod.fst).Nodup)
    (hvis : ∀ e ∈ cs.visible, e.2.scope ⊆ clueable defn ∧
      truthBlue defn ∩ e.2.scope ∈ e.2.worlds)
    (hk1 : 1 ≤ k) (hk2 : k ≤ 1001)
    (hprev : accTrace cs.visible (connectionsOf cs.visible) (k - 1) = [])
    (hcur : accTrace cs.visible (connectionsOf cs.visible) k ≠ [])
    (henv : k ≤ env.remaining) :
    cs.compound_invariants defn env =
      .ok (accTrace cs.visible (connectionsOf cs.visible) k) (k + 1)
        ⟨env.limit, env.remaining - k⟩
    ∧ ∀ e ∈ groupsTrace cs.visible (connectionsOf cs.visible) k,
        e.1.card = k + 1 := by
  have hprevAll : ∀ j, j < k →
      accTrace cs.visible (connectionsOf cs.visible) j = [] := by
    intro j hjk
    exact accTrace_empty_mono cs.visible (connectionsOf cs.visible) j (k - 1)
      (by omega) hprev
  constructor
  · have hg0 : ¬ initialGroups cs.visible = [] := by
      intro h0
      rcases trace_groups_empty cs.visible (connectionsOf cs.visible) 0 h0 k
        (by omega) with ⟨_, ha⟩
      exact hcur ha
    rw [Constraints.compound_invariants, compoundInvariantsFuel, if_neg hg0]
    have := compoundLoop_trace defn cs.visible k env.limit env.remaining hnodup
      hvis hk2 henv hprevAll hcur 1002 0 (by omega) (by omega)
    exact this
  · exact fun e he => (groupsTrace_ok defn cs.visible hvis k e he).2

/-- Witness for C2 on two overlapping constraints whose merge pins two
cells at the first compound iteration (difficulty `Local 2`). -/
theorem compound_difficulty_witness :
    (Constraints.mk []
        [(⟨0, 0⟩, ⟨{⟨0, 0⟩, ⟨1, 0⟩}, {{⟨1, 0⟩}, {⟨0, 0⟩, ⟨1, 0⟩}}⟩),
         (⟨1, 0⟩, ⟨{⟨1, 0⟩, ⟨2, 0⟩}, {{⟨1, 0⟩}}⟩)] ∅).compound_invariants
      [(⟨0, 0⟩, Cell.Zone0 false Color.Black), (⟨1, 0⟩, Cell.Zone0 false Color.Blue),
       (⟨2, 0⟩, Cell.Zone0 false Color.Black)] ⟨5, 5⟩ =
      .ok (accTrace
        [(⟨0, 0⟩, ⟨{⟨0, 0⟩, ⟨1, 0⟩}, {{⟨1, 0⟩}, {⟨0, 0⟩, ⟨1, 0⟩}}⟩),
         (⟨1, 0⟩, ⟨{⟨1, 0⟩, ⟨2, 0⟩}, {{⟨1, 0⟩}}⟩)]
        (connectionsOf
          [(⟨0, 0⟩, ⟨{⟨0, 0⟩, ⟨1, 0⟩}, {{⟨1, 0⟩}, {⟨0, 0⟩, ⟨1, 0⟩}}⟩),
           (⟨1, 0⟩, ⟨{⟨1, 0⟩, ⟨2, 0⟩}, {{⟨1, 0⟩}}⟩)]) 1) 2 ⟨5, 4⟩ :=
  (compound_difficulty_counts_iterations
    [(⟨0, 0⟩, Cell.Zone0 false Color.Black), (⟨1, 0⟩, Cell.Zone0 false Color.Blue),
     (⟨2, 0⟩, Cell.Zone0 false Color.Black)]
    (Constraints.mk []
      [(⟨0, 0⟩, ⟨{⟨0, 0⟩, ⟨1, 0⟩}, {{⟨1, 0⟩}, {⟨0, 0⟩, ⟨1, 0⟩}}⟩),
       (⟨1, 0⟩, ⟨{⟨1, 0⟩, ⟨2, 0⟩}, {{⟨1, 0⟩}}⟩)] ∅)
    ⟨5, 5⟩ 1 (by decide) (by decide) (by decide) (by decide) (by decide)
    (by decide) (by decide)).1

/-- Witness for C6: a puzzle with one unknown pair and an exhausted timeout
budget; the compound tier polls the token first and times out. -/
theorem timeout_discards_history_witness :
    solve [(⟨0, 0⟩, Cell.Zone0 false Color.Black), (⟨1, 0⟩, Cell.Zone0 false Color.Blue)]
      1 ⟨0, 0⟩
      (Progress.of_defn
        [(⟨0, 0⟩, Cell.Zone0 false Color.Black), (⟨1, 0⟩, Cell.Zone0 false Color.Blue)])
      (Constraints.mk [] [(⟨0, 0⟩, ⟨{⟨0, 0⟩, ⟨1, 0⟩}, {{⟨0, 0⟩}, {⟨1, 0⟩}}⟩)] ∅)
      [] = some .Timeout :=
  timeout_discards_history
    [(⟨0, 0⟩, Cell.Zone0 false Color.Black), (⟨1, 0⟩, Cell.Zone0 false Color.Blue)]
    0 ⟨0, 0⟩
    (Progress.of_defn
      [(⟨0, 0⟩, Cell.Zone0 false Color.Black), (⟨1, 0⟩, Cell.Zone0 false Color.Blue)])
    (Constraints.mk [] [(⟨0, 0⟩, ⟨{⟨0, 0⟩, ⟨1, 0⟩}, {{⟨0, 0⟩}, {⟨1, 0⟩}}⟩)] ∅)
    (Constraints.mk [] [(⟨0, 0⟩, ⟨{⟨0, 0⟩, ⟨1, 0⟩}, {{⟨0, 0⟩}, {⟨1, 0⟩}}⟩)] ∅)
    (by decide) (by decide) (by decide) (by decide)
    (Or.inl (by decide)) []

/-- Witness for C4: a one-constraint registry whose single multiverse forces
one blue cell. -/
theorem emitted_invariants_witness :
    ∀ e ∈ [((⟨0, 0⟩ : Coords), Color.Blue)],
      defnColor [(⟨0, 0⟩, Cell.Zone0 false Color.Blue)] e.1 = some e.2 :=
  emitted_invariants_match_definition.1
    [(⟨0, 0⟩, Cell.Zone0 false Color.Blue)]
    (Constraints.mk [] [(UNIQUE_COORDS, ⟨{⟨0, 0⟩}, {{⟨0, 0⟩}}⟩)] ∅)
    [(⟨0, 0⟩, Color.Blue)] (by decide)

/-- Inserting under a different key does not change a lookup. -/
theorem clookup_cinsert_ne {α : Type} {k k' : Coords} (hne : k ≠ k') (v : α) :
    ∀ l : Cmap α, clookup k' (cinsert k v l) = clookup k' l := by
  intro l
  induction l with
  | nil =>
      simp [cinsert, clookup, hne]
  | cons e t ih =>
      rw [cinsert]
      split_ifs with h1 h2
      · rw [clookup]
        dsimp only
        rw [if_neg hne]
      · rw [clookup]
        dsimp only
        rw [if_neg hne, clookup,
          if_neg (show ¬(e.1 = k') by rw [← h2]; exact hne)]
      · rw [clookup, clookup]
        by_cases h3 : e.1 = k'
        · rw [if_pos h3, if_pos h3]
        · rw [if_neg h3, if_neg h3, ih]

/-- A fold of insertions under keys different from `k'` does not change the
lookup of `k'`. -/
theorem clookup_foldl_cinsert {α : Type} {k' : Coords} (entries : List (Coords × α))
    (hk : ∀ e ∈ entries, e.1 ≠ k') :
    ∀ base : Cmap α,
      clookup k' (entries.foldl (fun m e => cinsert e.1 e.2 m) base) =
        clookup k' base := by
  induction entries with
  | nil => intro base; rfl
  | cons e t ih =>
      intro base
      rw [List.foldl_cons, ih (fun x hx => hk x (List.mem_cons_of_mem _ hx)),
        clookup_cinsert_ne (hk e (List.mem_cons_self _ _)) _ base]

/-- Provenance of entries of a fold of insertions. -/
theorem mem_foldl_cinsert {α : Type} (entries : List (Coords × α)) :
    ∀ (base : Cmap α) (e : Coords × α),
      e ∈ entries.foldl (fun m e => cinsert e.1 e.2 m) base →
        e ∈ base ∨ e ∈ entries := by
  induction entries with
  | nil => intro base e he; exact Or.inl he
  | cons a t ih =>
      intro base e he
      rw [List.foldl_cons] at he
      rcases ih _ e he with h | h
      · rcases mem_cinsert a.1 a.2 base e h with h' | h'
        · exact Or.inr (List.mem_cons.mpr (Or.inl h'))
        · exact Or.inl h'
      · exact Or.inr (List.mem_cons_of_mem _ h)

/-- Lookups through a value-only map. -/
theorem clookup_map_value {α β : Type} (f : α → β) (k : Coords) :
    ∀ l : Cmap α,
      clookup k (l.map fun e => (e.1, f e.2)) = (clookup k l).map f := by
  intro l
  induction l with
  | nil => rfl
  | cons e t ih =>
      rw [List.map_cons, clookup, clookup]
      by_cases h : e.1 = k
      · rw [if_pos h, if_pos h, Option.map_some']
      · rw [if_neg h, if_neg h, ih]

/-- A lookup survives a filter that keeps the found binding. -/
theorem clookup_filter {α : Type} (pred : Coords × α → Bool) {k : Coords} {v : α} :
    ∀ l : Cmap α, clookup k l = some v → pred (k, v) = true →
      clookup k (l.filter pred) = some v := by
  intro l
  induction l with
  | nil => intro h; cases h
  | cons e t ih =>
      intro h hp
      rw [clookup] at h
      rw [List.filter_cons]
      split_ifs at h with h1
      · injection h with hv
        have hekv : e = (k, v) := by
          rcases e with ⟨ek, ev⟩
          simp only at h1 hv
          rw [h1, hv]
        have hpe : pred e = true := by rw [hekv]; exact hp
        rw [if_pos hpe, clookup, if_pos h1, hv]
      · by_cases hpe : pred e = true
        · rw [if_pos hpe, clookup, if_neg h1]
          exact ih h hp
        · rw [if_neg hpe]
          exact ih h hp

/-- A filter with a nowhere-true predicate is empty. -/
theorem filter_nil_of {α : Type} (p : α → Bool) :
    ∀ l : List α, (∀ a ∈ l, p a = false) → l.filter p = [] := by
  intro l
  induction l with
  | nil => intro _; rfl
  | cons a t ih =>
      intro h
      have ha := h a (List.mem_cons_self _ _)
      rw [List.filter_cons, ha, if_neg (by decide)]
      exact ih fun x hx => h x (List.mem_cons_of_mem _ hx)

theorem csort_toFinset (s : Finset Coords) : (csort s).toFinset = s := by
  ext x
  rw [List.mem_toFinset, mem_csort]

/-- Scope of a fold of `learn`s: the learned coordinates are removed. -/
theorem foldl_learn_scope (col : Color) (L : List Coords) :
    ∀ mv : Multiverse,
      (L.foldl (fun m c => m.learn c col) mv).scope = mv.scope \ L.toFinset := by
  induction L with
  | nil => intro mv; simp
  | cons c L ih =>
      intro mv
      rw [List.foldl_cons, ih, learn_scope]
      ext x
      simp only [Finset.mem_sdiff, Finset.mem_erase, List.toFinset_cons,
        Finset.mem_insert]
      tauto

/-- A fold of `learn`s with ground-truth colors keeps the ground-truth
world. -/
theorem foldl_learn_truth (col : Color) (T : Finset Coords) (L : List Coords)
    (hc : ∀ c ∈ L, c ∈ T ↔ col = Color.Blue) :
    ∀ mv : Multiverse, T ∩ mv.scope ∈ mv.worlds →
      T ∩ (L.foldl (fun m c => m.learn c col) mv).scope ∈
        (L.foldl (fun m c => m.learn c col) mv).worlds := by
  induction L with
  | nil => intro mv h; exact h
  | cons c L ih =>
      intro mv h
      rw [List.foldl_cons]
      exact ih (fun x hx => hc x (List.mem_cons_of_mem _ hx)) _
        (learn_truth mv c col T (hc c (List.mem_cons_self _ _)) h)

/-- Scope of `narrow` on one multiverse: the visible blues and blacks are
removed from the scope. -/
theorem narrowMv_scope (vis blues blacks : Finset Coords) (mv : Multiverse) :
    (narrowMv vis blues blacks mv).scope =
      mv.scope \ ((mv.scope ∩ vis ∩ blues) ∪ (mv.scope ∩ vis ∩ blacks)) := by
  rw [narrowMv]
  by_cases h : mv.scope ∩ vis = ∅
  · rw [if_pos h, h]
    simp
  · rw [if_neg h, foldl_learn_scope, foldl_learn_scope, csort_toFinset,
      csort_toFinset]
    ext x
    simp only [Finset.mem_sdiff, Finset.mem_union, Finset.mem_inter]
    tauto

/-- With the visible set equal to `blacks ∪ blues`, `narrow` removes exactly
the visible cells from the scope. -/
theorem narrowMv_scope_vis (blues blacks : Finset Coords) (mv : Multiverse) :
    (narrowMv (blacks ∪ blues) blues blacks mv).scope =
      mv.scope \ (blacks ∪ blues) := by
  rw [narrowMv_scope]
  ext x
  simp only [Finset.mem_sdiff, Finset.mem_union, Finset.mem_inter]
  tauto

/-- `narrow` with ground-truth progress sets keeps the ground-truth
world. -/
theorem narrowMv_truth (vis blues blacks T : Finset Coords) (mv : Multiverse)
    (hb : ∀ c ∈ blues, c ∈ T) (hk : ∀ c ∈ blacks, c ∉ T)
    (hT : T ∩ mv.scope ∈ mv.worlds) :
    T ∩ (narrowMv vis blues blacks mv).scope ∈
      (narrowMv vis blues blacks mv).worlds := by
  rw [narrowMv]
  by_cases h : mv.scope ∩ vis = ∅
  · rw [if_pos h]
    exact hT
  · rw [if_neg h]
    apply foldl_learn_truth
    · intro c hc
      rw [mem_csort] at hc
      have hcb : c ∈ blacks := (Finset.mem_inter.mp hc).2
      constructor
      · intro hct
        exact absurd hct (hk c hcb)
      · intro hcol
        cases hcol
    · apply foldl_learn_truth
      · intro c hc
        rw [mem_csort] at hc
        exact ⟨fun _ => rfl, fun _ => hb c (Finset.mem_inter.mp hc).2⟩
      · exact hT

theorem state_ne_stuck (m : Multiverse) (h : m.worlds ≠ ∅) :
    m.state ≠ MState.Stuck := by
  rw [Multiverse.state]
  by_cases h1 : m.scope = ∅
  · rw [if_pos h1]
    decide
  · rw [if_neg h1, if_neg h]
    decide

theorem state_running (m : Multiverse) (h1 : m.scope ≠ ∅) (h2 : m.worlds ≠ ∅) :
    m.state = MState.Running := by
  rw [Multiverse.state, if_neg h1, if_neg h2]

/-- The checked insertion never fails when every incoming and accumulated
pair carries the ground-truth color: the duplicate-agreement check is then
forced, and the ground-truth assertion holds by hypothesis. -/
theorem addPairsChecked_total (defn : Defn) (ps : List (Coords × Color)) :
    ∀ inv : Cmap Color, (∀ pr ∈ ps, defnColor defn pr.1 = some pr.2) →
      (∀ pr ∈ inv, defnColor defn pr.1 = some pr.2) →
      ∃ inv', addPairsChecked defn ps inv = some inv' := by
  induction ps with
  | nil => intro inv _ _; exact ⟨inv, rfl⟩
  | cons p ps ih =>
      intro inv hps hinv
      rcases p with ⟨c, col⟩
      have hcol : defnColor defn c = some col := hps (c, col) (List.mem_cons_self _ _)
      have hnext : ∀ pr ∈ cinsert c col inv, defnColor defn pr.1 = some pr.2 := by
        intro pr hpr
        rcases mem_cinsert c col inv pr hpr with rfl | hpr'
        · exact hcol
        · exact hinv pr hpr'
      rw [addPairsChecked]
      rcases hl : clookup c inv with _ | col'
      · simp only [hl]
        rw [if_pos hcol]
        exact ih _ (fun pr hpr => hps pr (List.mem_cons_of_mem _ hpr)) hnext
      · have hc' : defnColor defn c = some col' := hinv (c, col') (clookup_mem hl)
        have hcc : col = col' := by
          rw [hcol] at hc'
          injection hc'
        simp only [hl]
        rw [if_pos hcc, if_pos hcol]
        exact ih _ (fun pr hpr => hps pr (List.mem_cons_of_mem _ hpr)) hnext

/-- Provenance of the checked insertion: every output pair is an input pair
or an accumulated pair. -/
theorem addPairsChecked_mem_of (defn : Defn) (ps : List (Coords × Color)) :
    ∀ inv inv' : Cmap Color, addPairsChecked defn ps inv = some inv' →
      ∀ pr ∈ inv', pr ∈ ps ∨ pr ∈ inv := by
  induction ps with
  | nil =>
      intro inv inv' h pr hpr
      rw [addPairsChecked] at h
      cases h
      exact Or.inr hpr
  | cons p ps ih =>
      intro inv inv' h pr hpr
      rcases p with ⟨c, col⟩
      rw [addPairsChecked] at h
      have hrec : addPairsChecked defn ps (cinsert c col inv) = some inv' →
          pr ∈ (c, col) :: ps ∨ pr ∈ inv := by
        intro h2
        rcases ih _ _ h2 pr hpr with h3 | h3
        · exact Or.inl (List.mem_cons_of_mem _ h3)
        · rcases mem_cinsert c col inv pr h3 with h4 | h4
          · exact Or.inl (h4 ▸ List.mem_cons_self _ _)
          · exact Or.inr h4
      rcases hl : clookup c inv with _ | col' <;> simp only [hl] at h <;>
        split_ifs at h
      · exact hrec h
      · exact hrec h

/-- `trivial_invariants` never fails when every visible multiverse is
scoped inside the clueable cells and compatible with the ground truth. -/
theorem trivialInvariants_total (defn : Defn) (hnodup : (defn.map Prod.fst).Nodup)
    (mvs : List Multiverse) :
    ∀ inv : Cmap Color,
      (∀ mv ∈ mvs, mv.scope ⊆ clueable defn ∧
        truthBlue defn ∩ mv.scope ∈ mv.worlds) →
      (∀ pr ∈ inv, defnColor defn pr.1 = some pr.2) →
      ∃ inv', trivialInvariants defn mvs inv = some inv' := by
  induction mvs with
  | nil => intro inv _ _; exact ⟨inv, rfl⟩
  | cons mv mvs ih =>
      intro inv hmvs hinv
      have hpairs := truth_pairs hnodup mv (hmvs mv (List.mem_cons_self _ _)).1
        (hmvs mv (List.mem_cons_self _ _)).2
      rcases addPairsChecked_total defn mv.invariants inv hpairs hinv with ⟨inv2, h2⟩
      rw [trivialInvariants]
      simp only [h2]
      exact ih inv2 (fun m hm => hmvs m (List.mem_cons_of_mem _ hm))
        (addPairsChecked_mem defn mv.invariants inv inv2 h2 hinv)

/-- Provenance for `trivial_invariants`: every output pair is emitted by a
visible multiverse or was already accumulated. -/
theorem trivialInvariants_mem_of (defn : Defn) (mvs : List Multiverse) :
    ∀ inv inv' : Cmap Color, trivialInvariants defn mvs inv = some inv' →
      ∀ pr ∈ inv', (∃ mv ∈ mvs, pr ∈ mv.invariants) ∨ pr ∈ inv := by
  induction mvs with
  | nil =>
      intro inv inv' h pr hpr
      rw [trivialInvariants] at h
      cases h
      exact Or.inr hpr
  | cons mv mvs ih =>
      intro inv inv' h pr hpr
      rw [trivialInvariants] at h
      rcases ha : addPairsChecked defn mv.invariants inv with _ | inv2 <;>
        rw [ha] at h
      · cases h
      · rcases ih _ _ h pr hpr with ⟨m, hm, hpm⟩ | h3
        · exact Or.inl ⟨m, List.mem_cons_of_mem _ hm, hpm⟩
        · rcases addPairsChecked_mem_of defn mv.invariants inv inv2 ha pr h3 with
            h4 | h4
          · exact Or.inl ⟨mv, List.mem_cons_self _ _, h4⟩
          · exact Or.inr h4

/-- Provenance for `collectPairs`. -/
theorem collectPairs_mem_of (defn : Defn) (ps : List (Coords × Color)) :
    ∀ inv inv' : Cmap Color, collectPairs defn ps inv = some inv' →
      ∀ pr ∈ inv', pr ∈ ps ∨ pr ∈ inv := by
  induction ps with
  | nil =>
      intro inv inv' h pr hpr
      rw [collectPairs] at h
      cases h
      exact Or.inr hpr
  | cons p ps ih =>
      intro inv inv' h pr hpr
      rcases p with ⟨c, col⟩
      rw [collectPairs] at h
      split_ifs at h
      rcases ih _ _ h pr hpr with h3 | h3
      · exact Or.inl (List.mem_cons_of_mem _ h3)
      · rcases mem_cinsert c col inv pr h3 with h4 | h4
        · exact Or.inl (h4 ▸ List.mem_cons_self _ _)
        · exact Or.inr h4

/-- Provenance for `collectGroups`. -/
theorem collectGroups_mem_of (defn : Defn) (gs : Groups) :
    ∀ inv inv' : Cmap Color, collectGroups defn gs inv = some inv' →
      ∀ pr ∈ inv', (∃ g ∈ gs, pr ∈ g.2.invariants) ∨ pr ∈ inv := by
  induction gs with
  | nil =>
      intro inv inv' h pr hpr
      rw [collectGroups] at h
      cases h
      exact Or.inr hpr
  | cons g gs ih =>
      intro inv inv' h pr hpr
      rw [collectGroups] at h
      rcases ha : collectPairs defn g.2.invariants inv with _ | inv2 <;>
        rw [ha] at h
      · cases h
      · rcases ih _ _ h pr hpr with ⟨m, hm, hpm⟩ | h3
        · exact Or.inl ⟨m, List.mem_cons_of_mem _ hm, hpm⟩
        · rcases collectPairs_mem_of defn g.2.invariants inv inv2 ha pr h3 with
            h4 | h4
          · exact Or.inl ⟨g, List.mem_cons_self _ _, h4⟩
          · exact Or.inr h4

/-- The defaulted lookup of a visible constraint inherits the scope bound,
clueable bound and ground-truth compatibility of the visible map (the
default, the neutral multiverse, satisfies them trivially). -/
theorem vget_prop (defn : Defn) (S : Finset Coords) (visible : Cmap Multiverse)
    (hvis : ∀ e ∈ visible, e.2.scope ⊆ S ∧ e.2.scope ⊆ clueable defn ∧
      truthBlue defn ∩ e.2.scope ∈ e.2.worlds) (k : Coords) :
    (vget visible k).scope ⊆ S ∧ (vget visible k).scope ⊆ clueable defn ∧
      truthBlue defn ∩ (vget visible k).scope ∈ (vget visible k).worlds := by
  rw [vget]
  rcases hl : clookup k visible with _ | mv
  · rw [Option.getD_none]
    refine ⟨Finset.empty_subset _, Finset.empty_subset _, ?_⟩
    rw [Multiverse.empty]
    simp
  · rw [Option.getD_some]
    exact hvis (k, mv) (clookup_mem hl)

/-- One growth iteration preserves the scope bound, clueable bound and
ground-truth compatibility of every group. -/
theorem growStep_prop (defn : Defn) (S : Finset Coords) (visible : Cmap Multiverse)
    (conn : Coords → Finset Coords)
    (hvis : ∀ e ∈ visible, e.2.scope ⊆ S ∧ e.2.scope ⊆ clueable defn ∧
      truthBlue defn ∩ e.2.scope ∈ e.2.worlds)
    (groups : Groups)
    (hgs : ∀ e ∈ groups, e.2.scope ⊆ S ∧ e.2.scope ⊆ clueable defn ∧
      truthBlue defn ∩ e.2.scope ∈ e.2.worlds) :
    ∀ e ∈ growStep visible conn groups,
      e.2.scope ⊆ S ∧ e.2.scope ⊆ clueable defn ∧
        truthBlue defn ∩ e.2.scope ∈ e.2.worlds := by
  intro e he
  rcases growStep_mem visible conn groups e he with
    ⟨eo, heo, kN, _, _, _, hval⟩
  rcases hgs eo heo with ⟨h1, h2, h3⟩
  rcases vget_prop defn S visible hvis kN with ⟨g1, g2, g3⟩
  rw [hval]
  refine ⟨?_, ?_, ?_⟩
  · rw [merge_scope]
    exact Finset.union_subset h1 g1
  · rw [merge_scope]
    exact Finset.union_subset h2 g2
  · exact merge_truth _ _ _ h3 g3

/-- The compound loop never panics when the visible constraints are truth
compatible, and every invariant it returns is keyed inside `S`. -/
theorem compoundLoop_sound (defn : Defn) (S : Finset Coords)
    (visible : Cmap Multiverse) (conn : Coords → Finset Coords)
    (hnodup : (defn.map Prod.fst).Nodup)
    (hvis : ∀ e ∈ visible, e.2.scope ⊆ S ∧ e.2.scope ⊆ clueable defn ∧
      truthBlue defn ∩ e.2.scope ∈ e.2.worlds) :
    ∀ (fuel it : Nat) (env : Env) (groups : Groups) (inv : Cmap Color) (diff : Nat),
      (∀ e ∈ groups, e.2.scope ⊆ S ∧ e.2.scope ⊆ clueable defn ∧
        truthBlue defn ∩ e.2.scope ∈ e.2.worlds) →
      (∀ pr ∈ inv, pr.1 ∈ S) →
      1 ≤ fuel → 1001 ≤ fuel + it →
      compoundLoop defn visible conn fuel it env groups inv diff ≠ .panic ∧
      (∀ (inv' : Cmap Color) (d' : Nat) (env' : Env),
        compoundLoop defn visible conn fuel it env groups inv diff =
          .ok inv' d' env' →
        ∀ pr ∈ inv', pr.1 ∈ S) := by
  intro fuel
  induction fuel with
  | zero =>
      intro it env groups inv diff _ _ h1 _
      exact absurd h1 (Nat.not_succ_le_zero 0)
  | succ fuel ih =>
      intro it env groups inv diff hgs hks _ hcap
      rw [compoundLoop]
      rcases hct : env.checkTimeout with _ | env1
      · simp only [hct]
        refine ⟨(by intro h; cases h), ?_⟩
        intro inv' d' env' h
        cases h
      · simp only [hct]
        have hgrown := growStep_prop defn S visible conn hvis groups hgs
        have hcoll := collectGroups_eq_pure defn (growStep visible conn groups) inv
          (fun e he => truth_pairs hnodup e.2 (hgrown e he).2.1 (hgrown e he).2.2)
        simp only [hcoll]
        have hks2 : ∀ pr ∈ collectGroupsPure (growStep visible conn groups) inv,
            pr.1 ∈ S := by
          intro pr hpr
          rcases collectGroups_mem_of defn _ inv _ hcoll pr hpr with ⟨g, hg, hpg⟩ | hpi
          · exact (hgrown g hg).1 (invariants_sound g.2 pr hpg).1
          · exact hks pr hpi
        by_cases hi : collectGroupsPure (growStep visible conn groups) inv = []
        · rw [if_pos hi]
          by_cases hg : growStep visible conn groups = []
          · rw [if_pos hg]
            refine ⟨(by intro h; cases h), ?_⟩
            intro inv' d' env' h
            injection h with h1 _ _
            intro pr hpr
            rw [← h1] at hpr
            exact hks2 pr hpr
          · rw [if_neg hg]
            by_cases hc : it + 1 > 1000
            · rw [if_pos hc]
              refine ⟨(by intro h; cases h), ?_⟩
              intro inv' d' env' h
              injection h with h1 _ _
              intro pr hpr
              rw [← h1] at hpr
              exact hks2 pr hpr
            · rw [if_neg hc]
              exact ih (it + 1) env1 _ _ (diff + 1) hgrown hks2
                (by omega) (by omega)
        · rw [if_neg hi]
          refine ⟨(by intro h; cases h), ?_⟩
          intro inv' d' env' h
          injection h with h1 _ _
          intro pr hpr
          rw [← h1] at hpr
          exact hks2 pr hpr

/-- `compound_invariants` never panics on truth-compatible visible
constraints, and every returned invariant is keyed inside `S`. -/
theorem compound_invariants_sound (defn : Defn) (S : Finset Coords) (env : Env)
    (cs : Constraints)
    (hnodup : (defn.map Prod.fst).Nodup)
    (hvis : ∀ e ∈ cs.visible, e.2.scope ⊆ S ∧ e.2.scope ⊆ clueable defn ∧
      truthBlue defn ∩ e.2.scope ∈ e.2.worlds) :
    cs.compound_invariants defn env ≠ .panic ∧
    (∀ (inv' : Cmap Color) (d' : Nat) (env' : Env),
      cs.compound_invariants defn env = .ok inv' d' env' →
      ∀ pr ∈ inv', pr.1 ∈ S) := by
  rw [Constraints.compound_invariants, compoundInvariantsFuel]
  by_cases hg : initialGroups cs.visible = []
  · rw [if_pos hg]
    refine ⟨(by intro h; cases h), ?_⟩
    intro inv' d' env' h
    injection h with h1 _ _
    intro pr hpr
    rw [← h1] at hpr
    cases hpr
  · rw [if_neg hg]
    refine compoundLoop_sound defn S cs.visible (connectionsOf cs.visible) hnodup hvis
      1002 0 env _ [] 2 ?_ ?_ (by omega) (by omega)
    · intro e he
      rcases initialGroups_mem cs.visible e he with ⟨eo, heo, rfl⟩
      exact hvis eo heo
    · intro pr hpr
      cases hpr

/-- The merge fold of `global_invariants` preserves the scope bound,
clueable bound and ground-truth compatibility. -/
theorem globalFold_prop (defn : Defn) (S : Finset Coords) :
    ∀ (mvs : List Multiverse) (env : Env) (mv : Multiverse),
      (mv.scope ⊆ S ∧ mv.scope ⊆ clueable defn ∧
        truthBlue defn ∩ mv.scope ∈ mv.worlds) →
      (∀ m ∈ mvs, m.scope ⊆ S ∧ m.scope ⊆ clueable defn ∧
        truthBlue defn ∩ m.scope ∈ m.worlds) →
      ∀ r, globalFoldLoop env mv mvs = some r →
        r.1.scope ⊆ S ∧ r.1.scope ⊆ clueable defn ∧
          truthBlue defn ∩ r.1.scope ∈ r.1.worlds := by
  intro mvs
  induction mvs with
  | nil =>
      intro env mv h _ r hr
      rw [globalFoldLoop] at hr
      cases hr
      exact h
  | cons m2 rest ih =>
      intro env mv h hall r hr
      rw [globalFoldLoop] at hr
      split at hr
      · cases hr
      · rename_i env1 hct
        rcases hall m2 (List.mem_cons_self _ _) with ⟨g1, g2, g3⟩
        refine ih env1 (mv.merge m2) ⟨?_, ?_, ?_⟩
          (fun m hm => hall m (List.mem_cons_of_mem _ hm)) r hr
        · rw [merge_scope]
          exact Finset.union_subset h.1 g1
        · rw [merge_scope]
          exact Finset.union_subset h.2.1 g2
        · exact merge_truth _ _ _ h.2.2 g3

/-- `global_invariants` never panics on truth-compatible fold lists, and
every returned invariant is keyed inside `S`. -/
theorem globalInvariantsOn_sound (defn : Defn) (S : Finset Coords) (env : Env)
    (mvs : List Multiverse)
    (hnodup : (defn.map Prod.fst).Nodup)
    (hall : ∀ m ∈ mvs, m.scope ⊆ S ∧ m.scope ⊆ clueable defn ∧
      truthBlue defn ∩ m.scope ∈ m.worlds) :
    globalInvariantsOn defn env mvs ≠ .panic ∧
    (∀ (inv' : Cmap Color) (env' : Env),
      globalInvariantsOn defn env mvs = .ok inv' env' →
      ∀ pr ∈ inv', pr.1 ∈ S) := by
  rw [globalInvariantsOn]
  rcases hf : globalFoldLoop env Multiverse.empty mvs with _ | r
  · simp only [hf]
    refine ⟨(by intro h; cases h), ?_⟩
    intro inv' env' h
    cases h
  · obtain ⟨mv, env1⟩ := r
    simp only [hf]
    have htriple := globalFold_prop defn S mvs env Multiverse.empty
      ⟨Finset.empty_subset _, Finset.empty_subset _, by rw [Multiverse.empty]; simp⟩
      hall (mv, env1) hf
    have hpairs := truth_pairs hnodup mv htriple.2.1 htriple.2.2
    rcases addPairsChecked_total defn mv.invariants [] hpairs
      (by intro pr hpr; cases hpr) with ⟨inv0, h0⟩
    simp only [h0]
    refine ⟨(by intro h; cases h), ?_⟩
    intro inv' env' h
    injection h with h1 _
    intro pr hpr
    rw [← h1] at hpr
    rcases addPairsChecked_mem_of defn mv.invariants [] inv0 h0 pr hpr with h2 | h2
    · exact htriple.1 (invariants_sound mv pr h2).1
    · cases h2

/-- `Progress::update` with ground-truth pairs keyed inside `unknowns`
preserves disjointness and color correctness of the three sets, keeps their
union, and removes exactly the reported keys from `unknowns`. -/
theorem update_preserves (defn : Defn) (p : Progress) (l : Cmap Color)
    (hkeys : ∀ pr ∈ l, pr.1 ∈ p.unknowns)
    (htruth : ∀ pr ∈ l, defnColor defn pr.1 = some pr.2)
    (hd1 : Disjoint p.blues p.blacks) (hd2 : Disjoint p.blues p.unknowns)
    (hd3 : Disjoint p.blacks p.unknowns)
    (hcb : ∀ c ∈ p.blues, defnColor defn c = some Color.Blue)
    (hck : ∀ c ∈ p.blacks, defnColor defn c = some Color.Black)
    (hcu : ∀ c ∈ p.unknowns, (defnColor defn c).isSome) :
    Disjoint (p.update l).blues (p.update l).blacks ∧
    Disjoint (p.update l).blues (p.update l).unknowns ∧
    Disjoint (p.update l).blacks (p.update l).unknowns ∧
    (∀ c ∈ (p.update l).blues, defnColor defn c = some Color.Blue) ∧
    (∀ c ∈ (p.update l).blacks, defnColor defn c = some Color.Black) ∧
    (∀ c ∈ (p.update l).unknowns, (defnColor defn c).isSome) ∧
    (p.update l).blues ∪ (p.update l).blacks ∪ (p.update l).unknowns =
      p.blues ∪ p.blacks ∪ p.unknowns ∧
    (p.update l).unknowns = p.unknowns \ (l.map Prod.fst).toFinset := by
  rcases update_sets l p with ⟨hb, hk, hu⟩
  have hmemB : ∀ c,
      c ∈ ((l.filter fun e => decide (e.2 = Color.Blue)).map Prod.fst).toFinset →
      (c, Color.Blue) ∈ l := by
    intro c hc
    simp only [List.mem_toFinset, List.mem_map, List.mem_filter,
      decide_eq_true_eq] at hc
    rcases hc with ⟨e, ⟨he, hcol⟩, rfl⟩
    rw [← hcol]
    exact he
  have hmemK : ∀ c,
      c ∈ ((l.filter fun e => decide (e.2 = Color.Black)).map Prod.fst).toFinset →
      (c, Color.Black) ∈ l := by
    intro c hc
    simp only [List.mem_toFinset, List.mem_map, List.mem_filter,
      decide_eq_true_eq] at hc
    rcases hc with ⟨e, ⟨he, hcol⟩, rfl⟩
    rw [← hcol]
    exact he
  have hcolB : ∀ c,
      c ∈ ((l.filter fun e => decide (e.2 = Color.Blue)).map Prod.fst).toFinset →
      defnColor defn c = some Color.Blue :=
    fun c hc => htruth _ (hmemB c hc)
  have hcolK : ∀ c,
      c ∈ ((l.filter fun e => decide (e.2 = Color.Black)).map Prod.fst).toFinset →
      defnColor defn c = some Color.Black :=
    fun c hc => htruth _ (hmemK c hc)
  have hsubB : ((l.filter fun e => decide (e.2 = Color.Blue)).map Prod.fst).toFinset ⊆
      (l.map Prod.fst).toFinset := by
    rw [← update_keys_split l]
    exact Finset.subset_union_left
  have hsubK : ((l.filter fun e => decide (e.2 = Color.Black)).map Prod.fst).toFinset ⊆
      (l.map Prod.fst).toFinset := by
    rw [← update_keys_split l]
    exact Finset.subset_union_right
  have hKun : (l.map Prod.fst).toFinset ⊆ p.unknowns := by
    intro x hx
    simp only [List.mem_toFinset, List.mem_map] at hx
    rcases hx with ⟨e, he, rfl⟩
    exact hkeys e he
  refine ⟨?_, ?_, ?_, ?_, ?_, ?_, ?_, hu⟩
  · rw [hb, hk, Finset.disjoint_left]
    intro x hx hx'
    rcases Finset.mem_union.mp hx with h1 | h1 <;>
      rcases Finset.mem_union.mp hx' with h2 | h2
    · exact (Finset.disjoint_left.mp hd1) h1 h2
    · exact absurd ((hcb x h1).symm.trans (hcolK x h2)) (by decide)
    · exact absurd ((hcolB x h1).symm.trans (hck x h2)) (by decide)
    · exact absurd ((hcolB x h1).symm.trans (hcolK x h2)) (by decide)
  · rw [hb, hu, Finset.disjoint_left]
    intro x hx hx'
    rcases Finset.mem_sdiff.mp hx' with ⟨hxu, hxk⟩
    rcases Finset.mem_union.mp hx with h1 | h1
    · exact (Finset.disjoint_left.mp hd2) h1 hxu
    · exact hxk (hsubB h1)
  · rw [hk, hu, Finset.disjoint_left]
    intro x hx hx'
    rcases Finset.mem_sdiff.mp hx' with ⟨hxu, hxk⟩
    rcases Finset.mem_union.mp hx with h1 | h1
    · exact (Finset.disjoint_left.mp hd3) h1 hxu
    · exact hxk (hsubK h1)
  · rw [hb]
    intro c hc
    rcases Finset.mem_union.mp hc with h1 | h1
    · exact hcb c h1
    · exact hcolB c h1
  · rw [hk]
    intro c hc
    rcases Finset.mem_union.mp hc with h1 | h1
    · exact hck c h1
    · exact hcolK c h1
  · rw [hu]
    intro c hc
    exact hcu c (Finset.mem_sdiff.mp hc).1
  · rw [hb, hk, hu]
    ext x
    simp only [Finset.mem_union, Finset.mem_sdiff]
    constructor
    · rintro (((hx | hx) | (hx | hx)) | ⟨hx, _⟩)
      · exact Or.inl (Or.inl hx)
      · exact Or.inr (hKun (hsubB hx))
      · exact Or.inl (Or.inr hx)
      · exact Or.inr (hKun (hsubK hx))
      · exact Or.inr hx
    · intro hx
      rcases hx with (hx | hx) | hx
      · exact Or.inl (Or.inl (Or.inl hx))
      · exact Or.inl (Or.inr (Or.inl hx))
      · by_cases hkx : x ∈ (l.map Prod.fst).toFinset
        · rw [← update_keys_split l] at hkx
          rcases Finset.mem_union.mp hkx with hkx | hkx
          · exact Or.inl (Or.inl (Or.inr hkx))
          · exact Or.inl (Or.inr (Or.inr hkx))
        · exact Or.inr ⟨hx, hkx⟩

/-- Steps 2 through 4 of a solve round under the loop invariant: the
garbage collection succeeds, every surviving visible constraint is scoped
inside the unknowns, clueable and truth compatible; with no unknowns left
the registry is fully drained, and otherwise the registry is non-empty and
the loop invariant still holds for the collected constraints. -/
theorem solveStep_state (defn : Defn) (p : Progress) (cs : Constraints)
    (hinv : SolveInv defn p cs) :
    ∃ cs3 : Constraints,
      ((cs.reveal (p.blacks ∪ p.blues)).narrow (p.blacks ∪ p.blues) p).gc =
        some cs3 ∧
      (∀ e ∈ cs3.visible, e.2.scope ⊆ p.unknowns ∧ e.2.scope ⊆ clueable defn ∧
        truthBlue defn ∩ e.2.scope ∈ e.2.worlds) ∧
      (p.unknowns = ∅ → cs3.isSolved) ∧
      (p.unknowns ≠ ∅ → ¬ cs3.isSolved ∧ SolveInv defn p cs3) := by
  obtain ⟨hnodup, hd1, hd2, hd3, hcb, hck, hcu, hmv, hhk, hhU, hvU, hus⟩ := hinv
  have hUnion_clueable : ∀ x ∈ p.blues ∪ p.blacks ∪ p.unknowns, x ∈ clueable defn := by
    intro x hx
    rw [mem_clueable_iff hnodup]
    rcases Finset.mem_union.mp hx with hx1 | hx1
    · rcases Finset.mem_union.mp hx1 with hx2 | hx2
      · rw [hcb x hx2]
        rfl
      · rw [hck x hx2]
        rfl
    · exact hcu x hx1
  have hvis1 : ∀ e ∈ (cs.reveal (p.blacks ∪ p.blues)).visible, mvOk defn p e.2 := by
    intro e he
    have he' : e ∈ (cs.hidden.filter fun e =>
        decide (e.1 ∈ p.blacks ∪ p.blues)).foldl
        (fun m e => cinsert e.1 e.2 m) cs.visible := he
    rcases mem_foldl_cinsert _ _ _ he' with h | h
    · exact hmv e (List.mem_append.mpr (Or.inl h))
    · exact hmv e (List.mem_append.mpr (Or.inr (List.mem_filter.mp h).1))
  have hlkU1 : clookup UNIQUE_COORDS (cs.reveal (p.blacks ∪ p.blues)).visible =
      clookup UNIQUE_COORDS cs.visible := by
    apply clookup_foldl_cinsert
    intro e he hEq
    apply hhU
    rw [← hEq]
    exact List.mem_map_of_mem Prod.fst (List.mem_filter.mp he).1
  obtain ⟨gU, hgU⟩ : ∃ g, clookup UNIQUE_COORDS cs.visible = some g := by
    rcases h : clookup UNIQUE_COORDS cs.visible with _ | g
    · rw [h] at hvU
      cases hvU
    · exact ⟨g, rfl⟩
  have hgUok : mvOk defn p gU :=
    hmv _ (List.mem_append.mpr (Or.inl (clookup_mem hgU)))
  have husU : p.unknowns ⊆ gU.scope := by
    have : vget cs.visible UNIQUE_COORDS = gU := by
      rw [vget, hgU, Option.getD_some]
    rw [← this]
    exact hus
  have hbT : ∀ c ∈ p.blues, c ∈ truthBlue defn :=
    fun c hc => (mem_truthBlue_iff hnodup c).mpr (hcb c hc)
  have hkT : ∀ c ∈ p.blacks, c ∉ truthBlue defn := by
    intro c hc hct
    rw [mem_truthBlue_iff hnodup, hck c hc] at hct
    exact absurd hct (by decide)
  have hvis2 : ∀ e ∈ ((cs.reveal (p.blacks ∪ p.blues)).narrow
      (p.blacks ∪ p.blues) p).visible,
      e.2.scope ⊆ p.unknowns ∧ e.2.scope ⊆ clueable defn ∧
        truthBlue defn ∩ e.2.scope ∈ e.2.worlds := by
    intro e he
    have he' : e ∈ (cs.reveal (p.blacks ∪ p.blues)).visible.map
        (fun e => (e.1, narrowMv (p.blacks ∪ p.blues) p.blues p.blacks e.2)) := he
    rcases List.mem_map.mp he' with ⟨e0, he0, rfl⟩
    have h0 := hvis1 e0 he0
    refine ⟨?_, ?_, ?_⟩
    · rw [narrowMv_scope_vis]
      intro x hx
      rcases Finset.mem_sdiff.mp hx with ⟨hx1, hx2⟩
      rcases Finset.mem_union.mp (h0.1 hx1) with h3 | h3
      · exfalso
        apply hx2
        rcases Finset.mem_union.mp h3 with h4 | h4
        · exact Finset.mem_union_right _ h4
        · exact Finset.mem_union_left _ h4
      · exact h3
    · rw [narrowMv_scope_vis]
      intro x hx
      exact hUnion_clueable x (h0.1 (Finset.mem_sdiff.mp hx).1)
    · exact narrowMv_truth (p.blacks ∪ p.blues) p.blues p.blacks _ e0.2 hbT hkT h0.2
  rcases hgl : gcList ((cs.reveal (p.blacks ∪ p.blues)).narrow
      (p.blacks ∪ p.blues) p).visible
      ((cs.reveal (p.blacks ∪ p.blues)).narrow (p.blacks ∪ p.blues) p).exhausted
    with _ | r
  · exfalso
    rcases (gcList_none_iff _ _).mp hgl with ⟨e, he, hs⟩
    exact state_ne_stuck e.2 (Finset.ne_empty_of_mem (hvis2 e he).2.2) hs
  have hgc : ((cs.reveal (p.blacks ∪ p.blues)).narrow (p.blacks ∪ p.blues) p).gc =
      some ⟨((cs.reveal (p.blacks ∪ p.blues)).narrow (p.blacks ∪ p.blues) p).hidden,
        r.1, r.2⟩ := by
    rw [Constraints.gc, hgl]
    rfl
  rcases gcList_some _ _ r hgl with ⟨hr1, _⟩
  have hhid2 : ((cs.reveal (p.blacks ∪ p.blues)).narrow (p.blacks ∪ p.blues) p).hidden =
      cs.hidden.filter fun e => decide (e.1 ∉ p.blacks ∪ p.blues) := rfl
  have hvis3 : ∀ e ∈ r.1, e.2.scope ⊆ p.unknowns ∧ e.2.scope ⊆ clueable defn ∧
      truthBlue defn ∩ e.2.scope ∈ e.2.worlds := by
    intro e he
    rw [hr1] at he
    exact hvis2 e (List.mem_filter.mp he).1
  refine ⟨_, hgc, hvis3, ?_, ?_⟩
  · intro hemp
    constructor
    · rw [hr1]
      apply filter_nil_of
      intro e he
      have hse : e.2.scope = ∅ :=
        Finset.subset_empty.mp (hemp ▸ (hvis2 e he).1)
      have hst : e.2.state = MState.Empty := by
        rw [Multiverse.state, if_pos hse]
      rw [hst]
      decide
    · rw [hhid2]
      apply filter_nil_of
      intro e he
      have hkv : e.1 ∈ p.blues ∪ p.blacks ∪ p.unknowns :=
        hhk e.1 (List.mem_map_of_mem Prod.fst he)
      have hmemv : e.1 ∈ p.blacks ∪ p.blues := by
        rcases Finset.mem_union.mp hkv with h3 | h3
        · rcases Finset.mem_union.mp h3 with h4 | h4
          · exact Finset.mem_union_right _ h4
          · exact Finset.mem_union_left _ h4
        · rw [hemp] at h3
          cases h3
      simp [hmemv]
  · intro hne
    have hlkU2 : clookup UNIQUE_COORDS ((cs.reveal (p.blacks ∪ p.blues)).narrow
        (p.blacks ∪ p.blues) p).visible =
        some (narrowMv (p.blacks ∪ p.blues) p.blues p.blacks gU) := by
      have : clookup UNIQUE_COORDS ((cs.reveal (p.blacks ∪ p.blues)).visible.map
          (fun e => (e.1, narrowMv (p.blacks ∪ p.blues) p.blues p.blacks e.2))) =
          (clookup UNIQUE_COORDS (cs.reveal (p.blacks ∪ p.blues)).visible).map
            (narrowMv (p.blacks ∪ p.blues) p.blues p.blacks) :=
        clookup_map_value _ _ _
      rw [show clookup UNIQUE_COORDS ((cs.reveal (p.blacks ∪ p.blues)).narrow
          (p.blacks ∪ p.blues) p).visible =
          clookup UNIQUE_COORDS ((cs.reveal (p.blacks ∪ p.blues)).visible.map
            (fun e => (e.1, narrowMv (p.blacks ∪ p.blues) p.blues p.blacks e.2)))
          from rfl,
        this, hlkU1, hgU, Option.map_some']
    have hsub2 : p.unknowns ⊆
        (narrowMv (p.blacks ∪ p.blues) p.blues p.blacks gU).scope := by
      rw [narrowMv_scope_vis]
      intro x hx
      rw [Finset.mem_sdiff]
      refine ⟨husU hx, ?_⟩
      intro hxv
      rcases Finset.mem_union.mp hxv with h4 | h4
      · exact (Finset.disjoint_left.mp hd3) h4 hx
      · exact (Finset.disjoint_left.mp hd2) h4 hx
    have hg2T : truthBlue defn ∩
        (narrowMv (p.blacks ∪ p.blues) p.blues p.blacks gU).scope ∈
        (narrowMv (p.blacks ∪ p.blues) p.blues p.blacks gU).worlds :=
      narrowMv_truth (p.blacks ∪ p.blues) p.blues p.blacks _ gU hbT hkT hgUok.2
    have hg2run : (narrowMv (p.blacks ∪ p.blues) p.blues p.blacks gU).state =
        MState.Running := by
      apply state_running
      · rcases Finset.nonempty_iff_ne_empty.mpr hne with ⟨x, hx⟩
        exact Finset.ne_empty_of_mem (hsub2 hx)
      · exact Finset.ne_empty_of_mem hg2T
    have hlkU3 : clookup UNIQUE_COORDS r.1 =
        some (narrowMv (p.blacks ∪ p.blues) p.blues p.blacks gU) := by
      rw [hr1]
      exact clookup_filter _ _ hlkU2 (by simp [hg2run])
    have hrne : r.1 ≠ [] := by
      intro h0
      rw [h0, clookup] at hlkU3
      cases hlkU3
    constructor
    · intro hsol
      exact hrne hsol.1
    · refine ⟨hnodup, hd1, hd2, hd3, hcb, hck, hcu, ?_, ?_, ?_, ?_, ?_⟩
      · intro e he
        rcases List.mem_append.mp he with h3 | h3
        · refine ⟨?_, (hvis3 e h3).2.2⟩
          intro x hx
          exact Finset.mem_union_right _ ((hvis3 e h3).1 hx)
        · rw [hhid2] at h3
          exact hmv e (List.mem_append.mpr (Or.inr (List.mem_filter.mp h3).1))
      · intro k hk3
        rcases List.mem_map.mp hk3 with ⟨e, he, rfl⟩
        rw [hhid2] at he
        exact hhk e.1 (List.mem_map_of_mem Prod.fst (List.mem_filter.mp he).1)
      · intro hU3
        rcases List.mem_map.mp hU3 with ⟨e, he, hEq⟩
        apply hhU
        rw [← hEq]
        rw [hhid2] at he
        exact List.mem_map_of_mem Prod.fst (List.mem_filter.mp he).1
      · rw [show (Constraints.mk ((cs.reveal (p.blacks ∪ p.blues)).narrow
            (p.blacks ∪ p.blues) p).hidden r.1 r.2).visible = r.1 from rfl, hlkU3]
        rfl
      · rw [show (Constraints.mk ((cs.reveal (p.blacks ∪ p.blues)).narrow
            (p.blacks ∪ p.blues) p).hidden r.1 r.2).visible = r.1 from rfl,
          vget, hlkU3, Option.getD_some]
        exact hsub2

/-- A successful `global_invariants` run emits only ground-truth pairs
(the assertion inside the insertion loop guarantees it). -/
theorem globalInvariantsOn_mem (defn : Defn) (env : Env) (mvs : List Multiverse)
    (inv' : Cmap Color) (env' : Env)
    (h : globalInvariantsOn defn env mvs = .ok inv' env') :
    ∀ e ∈ inv', defnColor defn e.1 = some e.2 := by
  rw [globalInvariantsOn] at h
  rcases hf : globalFoldLoop env Multiverse.empty mvs with _ | r <;>
    simp only [hf] at h
  · cases h
  · obtain ⟨mv, env1⟩ := r
    rcases ha : addPairsChecked defn mv.invariants [] with _ | inv0 <;>
      simp only [ha] at h
    · cases h
    · injection h with h1 _
      rw [← h1]
      exact addPairsChecked_mem defn mv.invariants [] inv0 ha
        (by intro pr hpr; cases hpr)

/-- A successful `compound_invariants` run emits only ground-truth pairs. -/
theorem compound_invariants_ok_mem (defn : Defn) (env : Env) (cs : Constraints)
    (inv' : Cmap Color) (d' : Nat) (env' : Env)
    (h : cs.compound_invariants defn env = .ok inv' d' env') :
    ∀ e ∈ inv', defnColor defn e.1 = some e.2 := by
  rw [Constraints.compound_invariants, compoundInvariantsFuel] at h
  by_cases hg : initialGroups cs.visible = []
  · rw [if_pos hg] at h
    injection h with h1 _ _
    intro e he
    rw [← h1] at he
    cases he
  · rw [if_neg hg] at h
    exact compoundLoop_ok_mem defn cs.visible (connectionsOf cs.visible) 1002 0 env
      _ [] 2 inv' d' env' h (by intro e he; cases he)

/-- The three invariant tiers of a solve round, under truth-compatible
visible constraints scoped inside the unknowns: no tier panics, and the
round either reports a timeout, reports the puzzle unsolvable, or produces
a non-empty invariant map of ground-truth pairs keyed inside the
unknowns. -/
theorem solveStepTiers_cases (defn : Defn) (env : Env) (p : Progress)
    (cs3 : Constraints)
    (hnodup : (defn.map Prod.fst).Nodup)
    (hvis : ∀ e ∈ cs3.visible, e.2.scope ⊆ p.unknowns ∧ e.2.scope ⊆ clueable defn ∧
      truthBlue defn ∩ e.2.scope ∈ e.2.worlds) :
    solveStepTiers defn env p cs3 = .outcome .Timeout ∨
    solveStepTiers defn env p cs3 = .outcome .Unsolvable ∨
    ∃ (env' : Env) (f : Findings) (inv : Cmap Color),
      solveStepTiers defn env p cs3 = .next env' (p.update inv) cs3 f inv ∧
      inv ≠ [] ∧ f.cells = (ckeys inv).toFinset ∧
      (∀ pr ∈ inv, pr.1 ∈ p.unknowns ∧ defnColor defn pr.1 = some pr.2) := by
  have hvisP : ∀ mv ∈ cvals cs3.visible, mv.scope ⊆ clueable defn ∧
      truthBlue defn ∩ mv.scope ∈ mv.worlds := by
    intro mv hm
    rcases List.mem_map.mp hm with ⟨e, he, rfl⟩
    exact ⟨(hvis e he).2.1, (hvis e he).2.2⟩
  obtain ⟨inv1, htr⟩ := trivialInvariants_total defn hnodup (cvals cs3.visible) []
    hvisP (by intro pr hpr; cases hpr)
  have htr' : cs3.trivial_invariants defn = some inv1 := htr
  by_cases h1 : inv1 = []
  · rw [solveStepTiers_compound defn env p cs3 (by rw [← h1]; exact htr')]
    have hcomp := compound_invariants_sound defn p.unknowns env.reset cs3 hnodup hvis
    rcases hc : cs3.compound_invariants defn env.reset with _ | _ | ⟨inv2, d2, env2⟩
    · simp only [hc]
      exact Or.inl trivial
    · exact absurd hc hcomp.1
    · simp only [hc]
      by_cases h2 : inv2 = []
      · rw [if_pos h2]
        have hglob := globalInvariantsOn_sound defn p.unknowns env2
          (cvals cs3.visible).reverse hnodup
          (by intro m hm
              rw [List.mem_reverse] at hm
              rcases List.mem_map.mp hm with ⟨e, he, rfl⟩
              exact hvis e he)
        rcases hg : cs3.global_invariants defn env2 with _ | _ | ⟨inv3, env3⟩
        · simp only [hg]
          exact Or.inl trivial
        · exact absurd hg hglob.1
        · simp only [hg]
          by_cases h3 : inv3 = []
          · rw [if_pos h3]
            exact Or.inr (Or.inl rfl)
          · rw [if_neg h3]
            refine Or.inr (Or.inr ⟨env3,
              ⟨Difficulty.Global cs3.visible.length, (ckeys inv3).toFinset⟩, inv3,
              rfl, h3, rfl, ?_⟩)
            intro pr hpr
            exact ⟨hglob.2 inv3 env3 hg pr hpr,
              globalInvariantsOn_mem defn env2 (cvals cs3.visible).reverse inv3 env3
                hg pr hpr⟩
      · rw [if_neg h2]
        refine Or.inr (Or.inr ⟨env2,
          ⟨Difficulty.Local d2, (ckeys inv2).toFinset⟩, inv2, rfl, h2, rfl, ?_⟩)
        intro pr hpr
        exact ⟨hcomp.2 inv2 d2 env2 hc pr hpr,
          compound_invariants_ok_mem defn env.reset cs3 inv2 d2 env2 hc pr hpr⟩
  · rw [solveStepTiers_trivial_next defn env p cs3 inv1 htr' h1]
    refine Or.inr (Or.inr ⟨env,
      ⟨Difficulty.Local 1, (ckeys inv1).toFinset⟩, inv1, rfl, h1, rfl, ?_⟩)
    intro pr hpr
    constructor
    · rcases trivialInvariants_mem_of defn (cvals cs3.visible) [] inv1 htr pr hpr with
        ⟨mv, hm, hpm⟩ | h0
      · rcases List.mem_map.mp hm with ⟨e, he, rfl⟩
        exact (hvis e he).1 (invariants_sound e.2 pr hpm).1
      · cases h0
    · exact trivialInvariants_mem defn (cvals cs3.visible) [] inv1 htr
        (by intro e he; cases he) pr hpr

/-- `Progress::update` with the non-empty invariant map of a successful
round strictly shrinks `unknowns`. -/
theorem update_card_lt (defn : Defn) (p : Progress) (cs : Constraints)
    (inv : Cmap Color) (hinv : SolveInv defn p cs) (hne : inv ≠ [])
    (hprops : ∀ pr ∈ inv, pr.1 ∈ p.unknowns ∧ defnColor defn pr.1 = some pr.2) :
    (p.update inv).unknowns.card < p.unknowns.card := by
  obtain ⟨_, hd1, hd2, hd3, hcb, hck, hcu, _, _, _, _, _⟩ := hinv
  obtain ⟨_, _, _, _, _, _, _, hueq⟩ := update_preserves defn p inv
    (fun pr hpr => (hprops pr hpr).1) (fun pr hpr => (hprops pr hpr).2)
    hd1 hd2 hd3 hcb hck hcu
  rw [hueq]
  apply Finset.card_lt_card
  rw [Finset.ssubset_iff_of_subset Finset.sdiff_subset]
  rcases inv with _ | ⟨pr, t⟩
  · exact absurd rfl hne
  · refine ⟨pr.1, (hprops pr (List.mem_cons_self _ _)).1, ?_⟩
    intro hmem
    apply (Finset.mem_sdiff.mp hmem).2
    simp

/-- One full solve round under the loop invariant: it returns `Solved` when
the progress is complete, or a timeout, or `Unsolvable`, or advances with a
non-empty ground-truth invariant map keyed inside the unknowns, updated
progress and a preserved loop invariant.  It never panics. -/
theorem solveStep_main (defn : Defn) (env : Env) (p : Progress) (cs : Constraints)
    (hinv : SolveInv defn p cs) :
    (p.isSolved ∧ solveStep defn env p cs = .outcome (.Solved [])) ∨
    solveStep defn env p cs = .outcome .Timeout ∨
    solveStep defn env p cs = .outcome .Unsolvable ∨
    ∃ (env' : Env) (cs' : Constraints) (f : Findings) (inv : Cmap Color),
      solveStep defn env p cs = .next env' (p.update inv) cs' f inv ∧
      inv ≠ [] ∧ f.cells = (ckeys inv).toFinset ∧
      (∀ pr ∈ inv, pr.1 ∈ p.unknowns ∧ defnColor defn pr.1 = some pr.2) ∧
      SolveInv defn (p.update inv) cs' := by
  obtain ⟨cs3, hgc, hvis3, hsolved, hnotsolved⟩ := solveStep_state defn p cs hinv
  rw [solveStep_gc_some defn env p cs cs3 hgc]
  by_cases hp : p.isSolved
  · rw [if_pos hp, if_pos (hsolved hp)]
    exact Or.inl ⟨hp, rfl⟩
  · rw [if_neg hp]
    have hne : p.unknowns ≠ ∅ := hp
    obtain ⟨hns, hinv3⟩ := hnotsolved hne
    rw [if_neg hns]
    rcases solveStepTiers_cases defn env p cs3 hinv.1 hvis3 with h | h |
      ⟨env', f, inv, hstep, hinvne, hcells, hprops⟩
    · exact Or.inr (Or.inl h)
    · exact Or.inr (Or.inr (Or.inl h))
    · refine Or.inr (Or.inr (Or.inr
        ⟨env', cs3, f, inv, hstep, hinvne, hcells, hprops, ?_⟩))
      obtain ⟨hnodup3, hd1, hd2, hd3, hcb, hck, hcu, hmv, hhk, hhU, hvU, hus⟩ := hinv3
      obtain ⟨ud1, ud2, ud3, ucb, uck, ucu, huni, hueq⟩ := update_preserves defn p inv
        (fun pr hpr => (hprops pr hpr).1) (fun pr hpr => (hprops pr hpr).2)
        hd1 hd2 hd3 hcb hck hcu
      refine ⟨hnodup3, ud1, ud2, ud3, ucb, uck, ucu, ?_, ?_, hhU, hvU, ?_⟩
      · intro e he
        refine ⟨?_, (hmv e he).2⟩
        rw [huni]
        exact (hmv e he).1
      · intro k hk
        rw [huni]
        exact hhk k hk
      · intro x hx
        rw [hueq] at hx
        exact hus (Finset.mem_sdiff.mp hx).1

/-- Fuel `n + 1` suffices for `solve` whenever at most `n` cells are
unknown and the loop invariant holds: each advancing round strictly
shrinks the unknowns, and no round panics. -/
theorem solve_total (defn : Defn) :
    ∀ (n : Nat) (p : Progress) (cs : Constraints) (env : Env) (hist : List Findings),
      p.unknowns.card ≤ n → SolveInv defn p cs →
      ∃ o, solve defn (n + 1) env p cs hist = some o ∧
        (o = Outcome.Timeout ∨ o = Outcome.Unsolvable ∨
          ∃ h, o = Outcome.Solved h) := by
  intro n
  induction n with
  | zero =>
      intro p cs env hist hcard hinv
      rcases solveStep_main defn env p cs hinv with ⟨_, hs⟩ | hs | hs |
        ⟨env', cs', f, inv, hs, hne, _, hprops, _⟩
      · refine ⟨Outcome.Solved hist, ?_, Or.inr (Or.inr ⟨hist, rfl⟩)⟩
        rw [solve]
        simp only [hs]
      · refine ⟨Outcome.Timeout, ?_, Or.inl rfl⟩
        rw [solve]
        simp only [hs]
      · refine ⟨Outcome.Unsolvable, ?_, Or.inr (Or.inl rfl)⟩
        rw [solve]
        simp only [hs]
      · exfalso
        rcases inv with _ | ⟨pr, t⟩
        · exact hne rfl
        · have hx := (hprops pr (List.mem_cons_self _ _)).1
          have h0 : p.unknowns = ∅ := Finset.card_eq_zero.mp (Nat.le_zero.mp hcard)
          rw [h0] at hx
          exact absurd hx (Finset.not_mem_empty _)
  | succ n ih =>
      intro p cs env hist hcard hinv
      rcases solveStep_main defn env p cs hinv with ⟨_, hs⟩ | hs | hs |
        ⟨env', cs', f, inv, hs, hne, _, hprops, hinv2⟩
      · refine ⟨Outcome.Solved hist, ?_, Or.inr (Or.inr ⟨hist, rfl⟩)⟩
        rw [solve]
        simp only [hs]
      · refine ⟨Outcome.Timeout, ?_, Or.inl rfl⟩
        rw [solve]
        simp only [hs]
      · refine ⟨Outcome.Unsolvable, ?_, Or.inr (Or.inl rfl)⟩
        rw [solve]
        simp only [hs]
      · have hlt := update_card_lt defn p cs inv hinv hne hprops
        rcases ih (p.update inv) cs' env' (hist ++ [f]) (by omega) hinv2 with
          ⟨o, ho, hshape⟩
        refine ⟨o, ?_, hshape⟩
        rw [solve]
        simp only [hs]
        exact ho

/--
C1: under the solver-loop invariant, every round of `solve` that advances
(returns neither `Timeout` nor `Unsolvable` nor `Solved`) pushes a
non-empty invariant map whose coordinates were all previously unknown, its
findings record exactly those coordinates, and the updated progress has
strictly fewer unknowns; consequently `|unknowns| + 1` rounds of fuel
always suffice for `solve` to return an outcome — `Solved` on a well-posed
puzzle, the only other possibilities being a timeout or an `Unsolvable`
report when some round finds nothing.  (Multiverse, cell taxonomy and
cancellation token modelled from the spec.)
-/
theorem solve_strictly_decreases_and_terminates (defn : Defn) (p : Progress)
    (cs : Constraints) (hinv : SolveInv defn p cs) :
    (∀ (env env' : Env) (p' : Progress) (cs' : Constraints) (f : Findings)
        (inv : Cmap Color),
        solveStep defn env p cs = .next env' p' cs' f inv →
        inv ≠ [] ∧ (∀ pr ∈ inv, pr.1 ∈ p.unknowns) ∧ p' = p.update inv ∧
          f.cells = (ckeys inv).toFinset ∧
          p'.unknowns.card < p.unknowns.card) ∧
    (∀ (env : Env) (hist : List Findings),
      ∃ o, solve defn (p.unknowns.card + 1) env p cs hist = some o ∧
        (o = Outcome.Timeout ∨ o = Outcome.Unsolvable ∨
          ∃ h, o = Outcome.Solved h)) := by
  constructor
  · intro env env' p' cs' f inv hstep
    rcases solveStep_main defn env p cs hinv with ⟨_, hs⟩ | hs | hs |
      ⟨env0, cs0, f0, inv0, hs, hne0, hcells0, hprops0, _⟩
    · rw [hstep] at hs
      cases hs
    · rw [hstep] at hs
      cases hs
    · rw [hstep] at hs
      cases hs
    · rw [hstep] at hs
      injection hs with he1 he2 he3 he4 he5
      subst he5
      refine ⟨hne0, fun pr hpr => (hprops0 pr hpr).1, he2, ?_, ?_⟩
      · rw [he4]
        exact hcells0
      · rw [he2]
        exact update_card_lt defn p cs inv hinv hne0 hprops0
  · intro env hist
    exact solve_total defn p.unknowns.card p cs env hist (le_refl _) hinv

/-- Witness for C1: a two-cell puzzle (one revealed blue cell, one unknown
black cell) whose global constraint already pins the ground truth; one
round of fuel beyond the single unknown suffices. -/
theorem solve_terminates_witness :
    SolveInv
      [(⟨0, 0⟩, Cell.Zone0 true Color.Blue), (⟨1, 0⟩, Cell.Zone0 false Color.Black)]
      (Progress.mk {⟨0, 0⟩} ∅ {⟨1, 0⟩})
      (Constraints.mk [] [(⟨999, 0⟩, ⟨{⟨0, 0⟩, ⟨1, 0⟩}, {{⟨0, 0⟩}}⟩)] ∅) ∧
    ∃ o,
      solve
        [(⟨0, 0⟩, Cell.Zone0 true Color.Blue), (⟨1, 0⟩, Cell.Zone0 false Color.Black)]
        ((Progress.mk {⟨0, 0⟩} ∅ {⟨1, 0⟩}).unknowns.card + 1) ⟨5, 5⟩
        (Progress.mk {⟨0, 0⟩} ∅ {⟨1, 0⟩})
        (Constraints.mk [] [(⟨999, 0⟩, ⟨{⟨0, 0⟩, ⟨1, 0⟩}, {{⟨0, 0⟩}}⟩)] ∅) [] =
        some o ∧
      (o = Outcome.Timeout ∨ o = Outcome.Unsolvable ∨ ∃ h, o = Outcome.Solved h) :=
  ⟨by decide,
   (solve_strictly_decreases_and_terminates
      [(⟨0, 0⟩, Cell.Zone0 true Color.Blue), (⟨1, 0⟩, Cell.Zone0 false Color.Black)]
      (Progress.mk {⟨0, 0⟩} ∅ {⟨1, 0⟩})
      (Constraints.mk [] [(⟨999, 0⟩, ⟨{⟨0, 0⟩, ⟨1, 0⟩}, {{⟨0, 0⟩}}⟩)] ∅)
      (by decide)).2 ⟨5, 5⟩ []⟩

end HexAlgo
